import Mathlib

/-!
# Verification of the smart-mobility shortest-path programs

Shallow embedding of the two C++ programs of this repository,
`project1.cpp` and `smart_mobility_shortest_path.cpp`, together with
proofs about them.

Modelling conventions:
* C++ `double` values are modelled exactly: quantities that the programs
  only add, compare and divide are modelled in a linear ordered field
  (instantiated at `ℚ` for concrete runs and at `ℝ` where the
  trigonometric haversine formula is involved).  Floating-point rounding
  and non-finite values are outside the embedding; the one place where
  the source inspects finiteness (`isfinite(length)` in the GraphML
  loader) is modelled by an `Option ℚ` whose `none` stands for a
  non-finite parse result.
* `std::unordered_map` is modelled by association lists with the C++
  `operator[]` default-insertion semantics made explicit
  (`alookup`/`aset`/`aupd`/`aensure`); iteration order of hash maps is
  unspecified in C++, and no theorem below depends on it except through
  the documented list order of the model.
* `std::priority_queue<pair<double,string>, …, greater<>>` pops the
  least pair in the lexicographic order on (cost, id); `minEntry`
  implements exactly that.
* The C++ `while` loops are modelled with explicit fuel; a `none` result
  means the C++ loop has not terminated within that much fuel.
* `mt19937_64` with `uniform_int_distribution(0, n-1)` is modelled by an
  arbitrary stream `rng : ℕ → ℕ`, consumed sequentially, the drawn index
  being `rng k % n`.
-/

namespace Mobility

/- ===================== association-list maps ===================== -/

/-- Lookup in an association-list map (first match wins; the loaders
keep keys unique exactly like `std::unordered_map`). -/
def alookup {α : Type} : List (String × α) → String → Option α
  | [], _ => none
  | p :: ps, k => if p.1 = k then some p.2 else alookup ps k

/-- Map assignment `m[k] = v` (overwrite or insert). -/
def aset {α : Type} : List (String × α) → String → α → List (String × α)
  | [], k, v => [(k, v)]
  | p :: ps, k, v => if p.1 = k then (k, v) :: ps else p :: aset ps k v

/-- The C++ `m[k]` default-insertion followed by an in-place update `f`
of the mapped value; `d` is the value-initialised default. -/
def aupd {α : Type} : List (String × α) → String → α → (α → α) → List (String × α)
  | [], k, d, f => [(k, f d)]
  | p :: ps, k, d, f => if p.1 = k then (k, f p.2) :: ps else p :: aupd ps k d f

/-- The C++ `m[k];` bare default-insertion (used for `adj[id];` and for
`nodes[s]` reads on absent keys). -/
def aensure {α : Type} (l : List (String × α)) (k : String) (d : α) : List (String × α) :=
  if (alookup l k).isSome then l else l ++ [(k, d)]

/- ===================== GeoMath ===================== -/

/-- Earth radius in meters, `static constexpr double R = 6371000.0`. -/
def earthR : ℝ := 6371000

/-- Degree-to-radian conversion, the C++ lambda `rad`. -/
noncomputable def rad (d : ℝ) : ℝ := d * Real.pi / 180

/-- C `atan2(y, x)`, modelled as the argument of the complex number
`x + y i` (which agrees with `atan2` on all inputs, including the axes). -/
noncomputable def atan2 (y x : ℝ) : ℝ := Complex.arg ⟨x, y⟩

/-- The `haversine` function shared verbatim by both programs. -/
noncomputable def haversine (lat1 lon1 lat2 lon2 : ℝ) : ℝ :=
  let dlat := rad (lat2 - lat1)
  let dlon := rad (lon2 - lon1)
  let a := Real.sin (dlat / 2) * Real.sin (dlat / 2)
    + Real.cos (rad lat1) * Real.cos (rad lat2)
      * Real.sin (dlon / 2) * Real.sin (dlon / 2)
  2 * earthR * atan2 (Real.sqrt a) (Real.sqrt (1 - a))

/-- Haversine applied to coordinates stored as rationals (the loader
stores parsed `double` coordinates; the model keeps them in `ℚ`). -/
noncomputable def havQ (lat1 lon1 lat2 lon2 : ℚ) : ℝ :=
  haversine (lat1 : ℝ) (lon1 : ℝ) (lat2 : ℝ) (lon2 : ℝ)

/- ===================== data model ===================== -/

/-- A graph node: `struct Node { string id; double lat; double lon; }`. -/
structure Node where
  id : String
  lat : ℚ
  lon : ℚ
  deriving DecidableEq

/-- Per-directed-edge metadata:
`struct EdgeInfo { double length; string roadName; }`. -/
structure EdgeInfo (K : Type) where
  length : K
  roadName : String

/-- The graph consumed by the shortest-path engine: the key set of the
C++ `nodes` map and the adjacency map `adj` (as an association list so
that the node/edge sets are finite by construction). -/
structure Graph (K : Type) where
  nodeIds : List String
  adjL : List (String × List (String × K))

/-- Total adjacency lookup: `adj[u]` default-inserts an empty vector for
an absent key, so absent keys read as `[]`. -/
def Graph.adj {K : Type} (g : Graph K) (u : String) : List (String × K) :=
  (alookup g.adjL u).getD []

/- ===================== shortest-path engine ===================== -/

variable {K : Type} [LinearOrderedField K]

/-- The `1e18` sentinel used by both programs as "+infinity". -/
def big (K : Type) [LinearOrderedField K] : K := 10 ^ 18

/-- State of the Dijkstra loop: the tentative-distance map `dist`
(total, with the C++ `operator[]` zero default made explicit in
`initDist`), the predecessor map `prev` (`none` for keys never
assigned), and the frontier `pq` as a multiset of (cost, node) pairs. -/
structure DState (K : Type) where
  dist : String → K
  prev : String → Option String
  pq : List (K × String)

/-- Least of two frontier entries in the lexicographic order on
(cost, id) used by `priority_queue<pair<double,string>, …, greater<>>`;
ties on both components are identical pairs. -/
def pmin (a b : K × String) : K × String :=
  if b.1 < a.1 ∨ (b.1 = a.1 ∧ b.2 < a.2) then b else a

/-- `pq.top()` of the C++ min-heap: the least (cost, id) pair. -/
def minEntry : List (K × String) → Option (K × String)
  | [] => none
  | e :: es => some (es.foldl pmin e)

/-- Removal of one occurrence of the popped pair (`pq.pop()`). -/
def pqErase : List (K × String) → (K × String) → List (K × String)
  | [], _ => []
  | x :: xs, e => if x = e then xs else x :: pqErase xs e

/-- One relaxation `if (dist[v] > cost) { dist[v]=cost; prev[v]=u;
pq.push({dist[v], v}); }` where `cost = cd + cst u v w` abstracts the
per-edge cost model of the two programs. -/
def relax (cst : String → String → K → K) (cd : K) (u : String)
    (st : DState K) (vw : String × K) : DState K :=
  let cost := cd + cst u vw.1 vw.2
  if st.dist vw.1 > cost then
    { dist := fun x => if x = vw.1 then cost else st.dist x
      prev := fun x => if x = vw.1 then some u else st.prev x
      pq := (cost, vw.1) :: st.pq }
  else st

/-- The `for (auto& pr : adj[u])` relaxation sweep. -/
def relaxAll (cst : String → String → K → K) (cd : K) (u : String)
    (l : List (String × K)) (st : DState K) : DState K :=
  l.foldl (relax cst cd u) st

/-- The `while (!pq.empty())` loop with the early `if (u == goal) break`,
with explicit fuel (`none` = the C++ loop did not finish in `fuel`
iterations). -/
def loop (g : Graph K) (cst : String → String → K → K) (goal : String) :
    ℕ → DState K → Option (DState K)
  | 0, _ => none
  | fuel + 1, st =>
    match minEntry st.pq with
    | none => some st
    | some e =>
      let st' : DState K := { st with pq := pqErase st.pq e }
      if e.2 = goal then some st'
      else loop g cst goal fuel (relaxAll cst e.1 e.2 (g.adj e.2) st')

/-- Initial tentative distances: `1e18` for every registered node,
`0` for `start`, and the `operator[]` zero default for every other id. -/
def initDist (g : Graph K) (start : String) : String → K :=
  fun v => if v = start then 0 else if v ∈ g.nodeIds then big K else 0

/-- Initial engine state (`dist[start] = 0; pq.push({0, start})`). -/
def initState (g : Graph K) (start : String) : DState K :=
  { dist := initDist g start, prev := fun _ => none, pq := [(0, start)] }

/-- The reconstruction loop
`for (string cur = goal; ; cur = prev[cur]) { path.push_back(cur);
if (cur == start) break; }`, with fuel; reading `prev` at an unassigned
key default-inserts the empty string, hence `.getD ""`. -/
def walkPrev (prev : String → Option String) (start : String) :
    ℕ → String → Option (List String)
  | 0, _ => none
  | fuel + 1, cur =>
    if cur = start then some [cur]
    else (walkPrev prev start fuel ((prev cur).getD "")).map (cur :: ·)

/-- The whole `dijkstra` function (result shape of `project1.cpp`):
`{{}, -1}` when `dist[goal] >= 1e18`, otherwise the reversed predecessor
walk together with `dist[goal]`. -/
def dijkstraRun (g : Graph K) (cst : String → String → K → K)
    (start goal : String) (fuel : ℕ) : Option (List String × K) :=
  (loop g cst goal fuel (initState g start)).bind fun st =>
    if st.dist goal ≥ big K then some ([], -1)
    else (walkPrev st.prev start fuel goal).map fun l => (l.reverse, st.dist goal)

/- ===================== the two cost models ===================== -/

/-- `const double AVG_SPEED = 13.9; // m/s`. -/
def avgSpeed (K : Type) [LinearOrderedField K] : K := 139 / 10

/-- `trafficDelay[u][v]` lookup of `project1.cpp` (0 when either level
of the nested map has no entry, exactly the `count(…) ? … : 0` code). -/
def pairDelay (tbl : List (String × List (String × K))) (u v : String) : K :=
  (alookup ((alookup tbl u).getD []) v).getD 0

/-- Edge cost of `project1.cpp`:
`cost = cd + w / AVG_SPEED + lightDelay` with the delay keyed by the
(origin, destination) pair. -/
def costP1 (tbl : List (String × List (String × K))) (u v : String) (w : K) : K :=
  w / avgSpeed K + pairDelay tbl u v

/-- `trafficLightDelay[v]` lookup of `smart_mobility_shortest_path.cpp`. -/
def nodeDelay (tbl : List (String × K)) (v : String) : K :=
  (alookup tbl v).getD 0

/-- Edge cost of `smart_mobility_shortest_path.cpp`: the code computes
`lightDelay` from `trafficLightDelay[v]` (destination-keyed) but the
relaxation then tests and assigns `cd + w` only — the delay is a dead
variable and the charged cost is the raw edge length in meters. -/
def costSmart (tbl : List (String × K)) (v : String) (w : K) : K :=
  let _lightDelay := nodeDelay tbl v
  w

/-- `dijkstra` of `project1.cpp` (returns route and total time). -/
def dijkstraP1 (g : Graph K) (tbl : List (String × List (String × K)))
    (start goal : String) (fuel : ℕ) : Option (List String × K) :=
  dijkstraRun g (costP1 tbl) start goal fuel

/-- `dijkstra` of `smart_mobility_shortest_path.cpp` (returns the route
only; `{}` on no path). -/
def dijkstraSmart (g : Graph K) (tbl : List (String × K))
    (start goal : String) (fuel : ℕ) : Option (List String) :=
  (dijkstraRun g (fun _u v w => costSmart tbl v w) start goal fuel).map Prod.fst

/- ===================== walks in a graph ===================== -/

/-- Directed walks from `start` witnessing their accumulated cost under
the cost model `cst`: `WalkW g cst start z W` holds when there is a
directed path `start → … → z` along `g.adj` whose edge costs sum to
`W`.  Built by appending edges at the end so that prefix sums are
available structurally. -/
inductive WalkW (g : Graph K) (cst : String → String → K → K) (start : String) :
    String → K → Prop
  | nil : WalkW g cst start start 0
  | snoc {u v : String} {w W : K} :
      WalkW g cst start u W → (v, w) ∈ g.adj u →
      WalkW g cst start v (W + cst u v w)

/-- Chains of predecessor links ending at `start` (the shape that makes
the C++ reconstruction loop terminate). -/
inductive PChain (p : String → Option String) (start : String) : String → Prop
  | base : PChain p start start
  | step {v u : String} : p v = some u → PChain p start u → PChain p start v

/- ===================== GraphML loader ===================== -/

/-- One `<data key="…">text</data>` entry of a node or edge element.
`num` is the value `atof(text)` of the C runtime, with `none` standing
for a non-finite `double` result; `text` is the raw character data. -/
structure DataEntry where
  key : String
  text : String
  num : Option ℚ

/-- A `<node id="…">` element (entries lacking a key or text are skipped
by the C++ loader and are simply absent here). -/
structure NodeElem where
  id : String
  data : List DataEntry

/-- An `<edge source="…" target="…">` element. -/
structure EdgeElem where
  source : String
  target : String
  data : List DataEntry

/-- The parsed attributed tree the loaders consume: the
`<key id attr.name>` declarations and the node and edge elements of the
`<graph>` element, in document order. -/
structure GraphMLDoc where
  keys : List (String × String)
  nodes : List NodeElem
  edges : List EdgeElem

/-- The state the loaders build: the C++ globals `nodes`, `adj` and
`edgeInfoMap`. -/
structure LoadState (K : Type) where
  nodes : List (String × Node)
  adj : List (String × List (String × K))
  edgeInfo : List (String × List (String × EdgeInfo K))

/-- Empty load state. -/
def LoadState.empty (K : Type) : LoadState K := ⟨[], [], []⟩

/-- The `keyIdToName` map built from the `<key>` elements (`map`
assignment, last declaration wins). -/
def keyMap (doc : GraphMLDoc) : List (String × String) :=
  doc.keys.foldl (fun m kv => aset m kv.1 kv.2) []

/-- Resolution of a data entry's attribute name,
`string attr = keyIdToName[key]` (empty string for unknown key ids). -/
def attrOf (keym : List (String × String)) (e : DataEntry) : String :=
  (alookup keym e.key).getD ""

/-- Node-element parsing shared by both loaders: latitude from an entry
whose attribute resolves to `lat`/`y` or whose key id is the `d4`
fallback, longitude symmetrically from `lon`/`x`/`d5`; unresolved
coordinates stay `0.0`.  (A non-finite parsed coordinate is outside the
embedding and modelled as `0`.) -/
def parseNode (keym : List (String × String)) (ne : NodeElem) : Node :=
  ne.data.foldl
    (fun nd e =>
      let attr := attrOf keym e
      if attr = "lat" ∨ attr = "y" ∨ e.key = "d4" then { nd with lat := e.num.getD 0 }
      else if attr = "lon" ∨ attr = "x" ∨ e.key = "d5" then { nd with lon := e.num.getD 0 }
      else nd)
    { id := ne.id, lat := 0, lon := 0 }

/-- Node registration shared by both loaders:
`nodes[id] = nd; adj[id];`. -/
noncomputable def loadNode (keym : List (String × String)) (st : LoadState ℝ) (ne : NodeElem) :
    LoadState ℝ :=
  { st with
    nodes := aset st.nodes ne.id (parseNode keym ne)
    adj := aensure st.adj ne.id [] }

/-- Edge processing of `project1.cpp` (lines 98–111): no edge data is
read at all; `nodes[s]`/`nodes[t]` default-insert value-initialised
nodes for unknown endpoints, the length is always the haversine
distance of the (possibly defaulted) endpoint coordinates, and both
directions are inserted unconditionally with an empty road name. -/
noncomputable def loadEdgeP1 (st : LoadState ℝ) (ee : EdgeElem) : LoadState ℝ :=
  let nodes1 := aensure st.nodes ee.source ⟨"", 0, 0⟩
  let nodes2 := aensure nodes1 ee.target ⟨"", 0, 0⟩
  let ns := (alookup nodes2 ee.source).getD ⟨"", 0, 0⟩
  let nt := (alookup nodes2 ee.target).getD ⟨"", 0, 0⟩
  let length := havQ ns.lat ns.lon nt.lat nt.lon
  { nodes := nodes2
    adj := aupd (aupd st.adj ee.source [] (· ++ [(ee.target, length)]))
      ee.target [] (· ++ [(ee.source, length)])
    edgeInfo := aupd (aupd st.edgeInfo ee.source [] (fun m => aset m ee.target ⟨length, ""⟩))
      ee.target [] (fun m => aset m ee.source ⟨length, ""⟩) }

/-- Accumulator of the edge-data sweep of
`smart_mobility_shortest_path.cpp`: declared length (`NAN`, i.e. `none`,
until assigned a finite value), road name and oneway text. -/
structure EdgeAttrs where
  length : Option ℚ
  road : String
  oneway : String

/-- The edge `<data>` sweep of `smart_mobility_shortest_path.cpp`
(lines 151–166): length from `length`/`d16`, road name from
`name`/`d13`, oneway text from `oneway`; later entries overwrite. -/
def parseEdgeData (keym : List (String × String)) (data : List DataEntry) : EdgeAttrs :=
  data.foldl
    (fun a e =>
      let attr := attrOf keym e
      if attr = "length" ∨ e.key = "d16" then { a with length := e.num }
      else if attr = "name" ∨ e.key = "d13" then { a with road := e.text }
      else if attr = "oneway" then { a with oneway := e.text }
      else a)
    ⟨none, "", ""⟩

/-- ASCII lowercasing of `transform(…, ::tolower)` (the C++ applies the
C locale's `tolower` byte-wise; the model lowercases the ASCII letters). -/
def asciiLower (s : String) : String := ⟨s.data.map Char.toLower⟩

/-- The oneway test of `smart_mobility_shortest_path.cpp` (lines
176–181): non-empty oneway text that lowercases to one of the three
tokens. -/
def onewayTrue (s : String) : Bool :=
  !(s == "") &&
    (let v := asciiLower s
     v == "true" || v == "yes" || v == "1")

/-- Modelled from the spec: an edge element "carries an attribute named
oneway whose value case-insensitively equals true, yes, or 1"
(§4.2 step 3 of the spec); stated on the resolved oneway value. -/
def onewaySpec (s : String) : Prop :=
  asciiLower s = "true" ∨ asciiLower s = "yes" ∨ asciiLower s = "1"

instance : DecidablePred onewaySpec := fun s => by
  unfold onewaySpec
  infer_instance

/-- The edge length resolved by `smart_mobility_shortest_path.cpp`
(lines 146–173, the local `length`): the declared finite value if one
was parsed, otherwise the haversine distance of the endpoint
coordinates (`0.0` when an endpoint is unknown). -/
noncomputable def smartLen (keym : List (String × String)) (st : LoadState ℝ)
    (ee : EdgeElem) : ℝ :=
  match (parseEdgeData keym ee.data).length with
  | some q => (q : ℝ)
  | none =>
    match alookup st.nodes ee.source, alookup st.nodes ee.target with
    | some ns, some nt => havQ ns.lat ns.lon nt.lat nt.lon
    | _, _ => 0

/-- Edge processing of `smart_mobility_shortest_path.cpp` (lines
139–191): parse the data entries; resolve the length (`smartLen`);
always insert the forward edge, and the reverse edge unless oneway. -/
noncomputable def loadEdgeSmart (keym : List (String × String)) (st : LoadState ℝ) (ee : EdgeElem) :
    LoadState ℝ :=
  let a := parseEdgeData keym ee.data
  let length : ℝ := smartLen keym st ee
  let road := a.road
  let st1 : LoadState ℝ :=
    { st with
      adj := aupd st.adj ee.source [] (· ++ [(ee.target, length)])
      edgeInfo := aupd st.edgeInfo ee.source [] (fun m => aset m ee.target ⟨length, road⟩) }
  if onewayTrue a.oneway then st1
  else
    { st1 with
      adj := aupd st1.adj ee.target [] (· ++ [(ee.source, length)])
      edgeInfo := aupd st1.edgeInfo ee.target [] (fun m => aset m ee.source ⟨length, road⟩) }

/-- `loadGraphML` of `project1.cpp` on an already-parsed document (the
XML parsing itself is the external collaborator; failures to obtain a
root are the external `LoadFailure`). -/
noncomputable def loadP1 (doc : GraphMLDoc) : LoadState ℝ :=
  let keym := keyMap doc
  doc.edges.foldl loadEdgeP1 (doc.nodes.foldl (loadNode keym) (LoadState.empty ℝ))

/-- `loadGraphML` of `smart_mobility_shortest_path.cpp` on an
already-parsed document. -/
noncomputable def loadSmart (doc : GraphMLDoc) : LoadState ℝ :=
  let keym := keyMap doc
  doc.edges.foldl (loadEdgeSmart keym) (doc.nodes.foldl (loadNode keym) (LoadState.empty ℝ))

/-- Total number of directed edges stored in an adjacency map. -/
def adjCount (l : List (String × List (String × ℝ))) : ℕ :=
  (l.map (fun p => p.2.length)).sum

/- ===================== NodeLocator ===================== -/

/-- `findNode` of `smart_mobility_shortest_path.cpp` (lines 199–209):
linear scan keeping the strictly closest node seen so far (`minD`
initialised to `1e18`), then the 20 m snap-tolerance test.  The C++
iterates the hash map in unspecified order; the model iterates the given
list in order. -/
noncomputable def findNode (nodes : List (String × Node)) (lat lon : ℚ) : String :=
  let p := nodes.foldl
    (fun (best : String × ℝ) kv =>
      let d := havQ lat lon kv.2.lat kv.2.lon
      if d < best.2 then (kv.2.id, d) else best)
    ("", (10 : ℝ) ^ 18)
  if p.2 ≤ 20 then p.1 else ""

/- ===================== RandomSampler ===================== -/

/-- `edgeInfoMap[a][b].length` with the `operator[]` value-initialised
default (`0.0`) at both levels. -/
def elookup (einfo : List (String × List (String × EdgeInfo K))) (u v : String) : K :=
  ((alookup ((alookup einfo u).getD []) v).getD ⟨0, ""⟩).length

/-- `pathLength` of `smart_mobility_shortest_path.cpp`: sum of the
stored lengths of consecutive pairs. -/
def pathLength (einfo : List (String × List (String × EdgeInfo K))) :
    List String → K
  | [] => 0
  | [_] => 0
  | a :: b :: rest => elookup einfo a b + pathLength einfo (b :: rest)

/-- One Monte-Carlo trial (the inner `for (st = 0; st < N; st++)` walk):
returns the accumulated path, the final node and the advanced random
counter.  `rng k % n` models `uniform_int_distribution(0, n-1)` on the
`k`-th draw. -/
def mcWalk (adjf : String → List (String × K)) (goal : String) (rng : ℕ → ℕ) :
    ℕ → ℕ → String → List String → List String × String × ℕ
  | 0, ctr, cur, path => (path, cur, ctr)
  | n + 1, ctr, cur, path =>
    if cur = goal then (path, cur, ctr)
    else
      let nb := adjf cur
      if nb.length = 0 then (path, cur, ctr)
      else
        let nxt := (nb.getD (rng ctr % nb.length) ("", 0)).1
        mcWalk adjf goal rng n (ctr + 1) nxt (path ++ [nxt])

/-- The outer `for (i = 0; i < M; i++)` trial loop of `monteCarlo`,
threading the random counter and the best hit
(`bestStep = 1e9`, `bestLen = 1e18` initially). -/
def mcTrials (adjf : String → List (String × K))
    (einfo : List (String × List (String × EdgeInfo K)))
    (start goal : String) (N : ℕ) (rng : ℕ → ℕ) :
    ℕ → ℕ → List String × ℕ × K → List String
  | 0, _, b => b.1
  | m + 1, ctr, b =>
    let r := mcWalk adjf goal rng N ctr start [start]
    let path := r.1
    let cur := r.2.1
    let ctr' := r.2.2
    if cur = goal then
      let len := pathLength einfo path
      if path.length < b.2.1 ∨ (path.length = b.2.1 ∧ len < b.2.2) then
        mcTrials adjf einfo start goal N rng m ctr' (path, path.length, len)
      else mcTrials adjf einfo start goal N rng m ctr' b
    else mcTrials adjf einfo start goal N rng m ctr' b

/-- `monteCarlo` of `smart_mobility_shortest_path.cpp` (lines 278–318);
the seed of `mt19937_64` is abstracted into the stream `rng`. -/
def monteCarlo (adjf : String → List (String × K))
    (einfo : List (String × List (String × EdgeInfo K)))
    (start goal : String) (M N : ℕ) (rng : ℕ → ℕ) : List String :=
  mcTrials adjf einfo start goal N rng M 0 ([], 10 ^ 9, big K)

/- ===================== graph well-formedness ===================== -/

/-- The GraphModel invariant of the spec (§3): every adjacency target is
a registered node. -/
def WFTargets (g : Graph K) : Prop :=
  ∀ u v w, (v, w) ∈ g.adj u → v ∈ g.nodeIds

/-- Non-negativity of the cost model on the edges of the graph
(the precondition of §4.5 of the spec). -/
def NonnegCost (g : Graph K) (cst : String → String → K → K) : Prop :=
  ∀ u v w, (v, w) ∈ g.adj u → 0 ≤ cst u v w

/-- Built-graph invariant (claim C4): every id used in adjacency (source
key or neighbour) has a `Node` entry. -/
def NodesCoverAdj (nodes : List (String × Node))
    (adjm : List (String × List (String × ℝ))) : Prop :=
  ∀ k l, alookup adjm k = some l →
    (alookup nodes k).isSome ∧ ∀ vw ∈ l, (alookup nodes vw.1).isSome

/-- Built-graph invariant (claim C4): every adjacency weight is
non-negative. -/
def AdjNonneg (adjm : List (String × List (String × ℝ))) : Prop :=
  ∀ k l, alookup adjm k = some l → ∀ vw ∈ l, 0 ≤ vw.2

/-- Built-graph invariant (claim C4): every stored `EdgeInfo` length is
non-negative. -/
def EInfoNonneg (einfo : List (String × List (String × EdgeInfo ℝ))) : Prop :=
  ∀ k m, alookup einfo k = some m → ∀ p ∈ m, 0 ≤ p.2.length

/-- Conjunction of the three built-graph invariants of claim C4 for a
loader state. -/
def GoodBuild (st : LoadState ℝ) : Prop :=
  NodesCoverAdj st.nodes st.adj ∧ AdjNonneg st.adj ∧ EInfoNonneg st.edgeInfo

/- ===================== Dijkstra loop invariant ===================== -/

/-- A node is `touched` once its tentative distance has moved below its
initial value (`start` counts as touched from the beginning). -/
def touched (g : Graph K) (start : String) (st : DState K) (v : String) : Prop :=
  st.dist v < initDist g start v ∨ v = start

/-- All ids that occur as targets anywhere in the adjacency map. -/
def adjTargets (g : Graph K) : Finset String :=
  (g.adjL.foldr (fun p acc => p.2.map Prod.fst ++ acc) []).toFinset

/-- The finite set of ids that can ever enter the frontier. -/
def cand (g : Graph K) (start : String) : Finset String :=
  insert start (adjTargets g)

/-- Out-degree (adjacency-list length) of a node. -/
def deg (g : Graph K) (v : String) : ℕ := (g.adj v).length

/-- Termination measure of the Dijkstra loop: frontier size plus the
total processing budget of the candidate nodes not yet settled. -/
def mu (g : Graph K) (start : String) (st : DState K) (done : Finset String) : ℕ :=
  st.pq.length + Finset.sum (cand g start \ done) (fun v => 1 + deg g v)

/-- The invariant of the Dijkstra loop, relative to a ghost set `done`
of settled nodes and a ghost lower bound `m` on the frontier (the value
of the last extraction).  All fields are facts about the real loop
state `st`. -/
structure Inv (g : Graph K) (cst : String → String → K → K) (start : String)
    (st : DState K) (done : Finset String) (m : K) : Prop where
  distLe : ∀ v, st.dist v ≤ initDist g start v
  distNonneg : ∀ v, 0 ≤ st.dist v
  mNonneg : 0 ≤ m
  realized : ∀ v, st.dist v = initDist g start v ∨ WalkW g cst start v (st.dist v)
  pqWalk : ∀ e ∈ st.pq, WalkW g cst start e.2 e.1
  pqGe : ∀ e ∈ st.pq, st.dist e.2 ≤ e.1
  pqLtBig : ∀ e ∈ st.pq, e.1 < big K
  pqM : ∀ e ∈ st.pq, m ≤ e.1
  pqTouched : ∀ e ∈ st.pq, touched g start st e.2
  pqOnce : ∀ v, (st.dist v, v) ∉ pqErase st.pq (st.dist v, v)
  pqCand : ∀ e ∈ st.pq, e.2 ∈ cand g start
  pqPrev : ∀ e ∈ st.pq, e.2 = start ∨ (st.prev e.2).isSome
  doneM : ∀ u ∈ done, st.dist u ≤ m
  doneTri : ∀ u ∈ done, ∀ vw ∈ g.adj u, st.dist vw.1 ≤ st.dist u + cst u vw.1 vw.2
  doneStale : ∀ u ∈ done, ∀ e ∈ st.pq, e.2 = u → st.dist u < e.1
  doneCand : done ⊆ cand g start
  eWit : ∀ v, touched g start st v → v ∈ done ∨ (st.dist v, v) ∈ st.pq
  prevSet : ∀ v, st.dist v < initDist g start v → (st.prev v).isSome
  prevChain : ∀ v u, st.prev v = some u → PChain st.prev start v
  prevMono : ∀ v u, st.prev v = some u → st.dist u ≤ st.dist v

/-- The invariant holding in the middle of the relaxation sweep of a
freshly extracted node `u` (popped with key `cd = dist u`): all of `Inv`
relative to the old `done` set, except that the settled-triangle fact
for `u` itself is only established edge by edge as the sweep proceeds;
`u`s own facts are carried in the `u`-fields. -/
structure MidInv (g : Graph K) (cst : String → String → K → K) (start : String)
    (u : String) (cd : K) (st : DState K) (done : Finset String) : Prop where
  distLe : ∀ v, st.dist v ≤ initDist g start v
  distNonneg : ∀ v, 0 ≤ st.dist v
  cdNonneg : 0 ≤ cd
  realized : ∀ v, st.dist v = initDist g start v ∨ WalkW g cst start v (st.dist v)
  pqWalk : ∀ e ∈ st.pq, WalkW g cst start e.2 e.1
  pqGe : ∀ e ∈ st.pq, st.dist e.2 ≤ e.1
  pqLtBig : ∀ e ∈ st.pq, e.1 < big K
  pqM : ∀ e ∈ st.pq, cd ≤ e.1
  pqTouched : ∀ e ∈ st.pq, touched g start st e.2
  pqOnce : ∀ v, (st.dist v, v) ∉ pqErase st.pq (st.dist v, v)
  pqCand : ∀ e ∈ st.pq, e.2 ∈ cand g start
  pqPrev : ∀ e ∈ st.pq, e.2 = start ∨ (st.prev e.2).isSome
  doneM : ∀ u' ∈ done, st.dist u' ≤ cd
  doneTri : ∀ u' ∈ done, ∀ vw ∈ g.adj u', st.dist vw.1 ≤ st.dist u' + cst u' vw.1 vw.2
  doneStale : ∀ u' ∈ done, ∀ e ∈ st.pq, e.2 = u' → st.dist u' < e.1
  doneCand : done ⊆ cand g start
  eWit : ∀ v, touched g start st v → v = u ∨ v ∈ done ∨ (st.dist v, v) ∈ st.pq
  prevSet : ∀ v, st.dist v < initDist g start v → (st.prev v).isSome
  prevChain : ∀ v u', st.prev v = some u' → PChain st.prev start v
  prevMono : ∀ v u', st.prev v = some u' → st.dist u' ≤ st.dist v
  uDist : st.dist u = cd
  uStale : ∀ e ∈ st.pq, e.2 = u → st.dist u < e.1
  uCand : u ∈ cand g start
  uChain : PChain st.prev start u
  uWalk : WalkW g cst start u cd

/-- Exit characterisation of the Dijkstra loop: either the frontier
emptied (and the invariant holds of the final state), or the goal was
extracted (and the invariant holds of the pre-extraction state, whose
`dist`/`prev` the final state shares). -/
def Exited (g : Graph K) (cst : String → String → K → K) (start goal : String)
    (stF : DState K) : Prop :=
  ∃ done m,
    (Inv g cst start stF done m ∧ stF.pq = []) ∨
    (∃ stPre cd, Inv g cst start stPre done m ∧
      minEntry stPre.pq = some (cd, goal) ∧
      stF.dist = stPre.dist ∧ stF.prev = stPre.prev ∧
      stF.pq = pqErase stPre.pq (cd, goal))

/- ===================== concrete test fixtures ===================== -/

/-- The 4-node cycle A–B–C–D–A with uniform 100 m edges of §8 of the
spec (adjacency as built from the edge list A–B, B–C, C–D, D–A in both
directions). -/
def cycleGraphQ : Graph ℚ :=
  { nodeIds := ["A", "B", "C", "D"]
    adjL := [("A", [("B", 100), ("D", 100)]),
             ("B", [("A", 100), ("C", 100)]),
             ("C", [("B", 100), ("D", 100)]),
             ("D", [("C", 100), ("A", 100)])] }

/-- The DistanceOnly cost model of the spec (§4.4): the cost of an edge
is its stored length. -/
def distanceOnly (K : Type) [LinearOrderedField K] : String → String → K → K :=
  fun _ _ w => w

/-- A 10-second signal delay registered at node B, as the
destination-keyed table of `smart_mobility_shortest_path.cpp`. -/
def delayAtB : List (String × ℚ) := [("B", 10)]

/-- A 10-second signal delay registered at node B, as the pair-keyed
table of `project1.cpp` (both edges into B). -/
def delayAtBPairs : List (String × List (String × ℚ)) :=
  [("A", [("B", 10)]), ("C", [("B", 10)])]

/-- Two registered nodes and no edges at all: disconnected fixture. -/
def twoIslands : Graph ℚ := { nodeIds := ["A", "B"], adjL := [] }

/-- A document whose single edge carries `oneway = "true"` (via the key
declaration `k1 ↦ oneway`). -/
def onewayDoc : GraphMLDoc :=
  { keys := [("k1", "oneway")]
    nodes := []
    edges := [{ source := "X", target := "Y", data := [⟨"k1", "true", some 1⟩] }] }

/-- A document whose single edge declares the negative length `-5` and
whose endpoints are not declared as nodes. -/
def negLenDoc : GraphMLDoc :=
  { keys := [("k1", "length")]
    nodes := []
    edges := [{ source := "X", target := "Y", data := [⟨"k1", "-5", some (-5)⟩] }] }

/-- A well-formed document: two declared nodes and one edge with a
declared non-negative length. -/
def goodDoc : GraphMLDoc :=
  { keys := [("k1", "length")]
    nodes := [{ id := "A", data := [] }, { id := "B", data := [] }]
    edges := [{ source := "A", target := "B", data := [⟨"k1", "7", some 7⟩] }] }

/- ===================== lemmas: association lists ===================== -/

theorem alookup_aset {α : Type} (l : List (String × α)) (k k' : String) (v : α) :
    alookup (aset l k v) k' = if k = k' then some v else alookup l k' := by
  induction l with
  | nil => simp [aset, alookup]
  | cons p ps ih =>
    by_cases h : p.1 = k
    · by_cases h' : k = k' <;> simp_all [aset, alookup]
    · by_cases h' : p.1 = k' <;> by_cases h'' : k = k' <;>
        simp_all [aset, alookup]

theorem alookup_aupd {α : Type} (l : List (String × α)) (k k' : String) (d : α)
    (f : α → α) :
    alookup (aupd l k d f) k' =
      if k = k' then some (f ((alookup l k).getD d)) else alookup l k' := by
  induction l with
  | nil => simp [aupd, alookup]
  | cons p ps ih =>
    by_cases h : p.1 = k
    · by_cases h' : k = k' <;> simp_all [aupd, alookup]
    · by_cases h' : p.1 = k' <;> by_cases h'' : k = k' <;>
        simp_all [aupd, alookup]

theorem alookup_append {α : Type} (l₁ l₂ : List (String × α)) (k : String) :
    alookup (l₁ ++ l₂) k =
      match alookup l₁ k with
      | some v => some v
      | none => alookup l₂ k := by
  induction l₁ with
  | nil => simp [alookup]
  | cons p ps ih => by_cases h : p.1 = k <;> simp [alookup, h, ih]

theorem alookup_aensure {α : Type} (l : List (String × α)) (k k' : String) (d : α) :
    alookup (aensure l k d) k' =
      if k = k' then some ((alookup l k).getD d) else alookup l k' := by
  unfold aensure
  by_cases hs : (alookup l k).isSome
  · obtain ⟨v, hv⟩ := Option.isSome_iff_exists.mp hs
    by_cases h' : k = k' <;> simp_all
  · have hnone : alookup l k = none := Option.not_isSome_iff_eq_none.mp hs
    rw [if_neg (by simp [hs]), alookup_append]
    by_cases h' : k = k'
    · subst h'
      simp [hnone, alookup]
    · cases hlk : alookup l k' <;> simp [alookup, h', hnone, hlk]

theorem alookup_mem {α : Type} {l : List (String × α)} {k : String} {v : α}
    (h : alookup l k = some v) : (k, v) ∈ l := by
  induction l with
  | nil => simp [alookup] at h
  | cons p ps ih =>
    by_cases hp : p.1 = k
    · simp only [alookup, hp, if_true, Option.some.injEq] at h
      subst h
      rw [← hp]
      exact List.mem_cons_self _ _
    · simp only [alookup, hp, if_false] at h
      exact List.mem_cons_of_mem _ (ih h)

/- ===================== lemmas: the frontier ===================== -/

theorem pqErase_subset {e x : K × String} :
    ∀ {l : List (K × String)}, x ∈ pqErase l e → x ∈ l := by
  intro l
  induction l with
  | nil => simp [pqErase]
  | cons a as ih =>
    intro h
    by_cases ha : a = e
    · rw [pqErase, if_pos ha] at h
      exact List.mem_cons_of_mem _ h
    · rw [pqErase, if_neg ha] at h
      rcases List.mem_cons.mp h with h' | h'
      · exact h' ▸ List.mem_cons_self _ _
      · exact List.mem_cons_of_mem _ (ih h')

theorem mem_pqErase_of_ne {l : List (K × String)} {e x : K × String}
    (hx : x ∈ l) (hne : x ≠ e) : x ∈ pqErase l e := by
  induction l with
  | nil => simp at hx
  | cons a as ih =>
    by_cases ha : a = e
    · rw [pqErase, if_pos ha]
      rcases List.mem_cons.mp hx with h | h
      · exact absurd (h.trans ha) hne
      · exact h
    · rw [pqErase, if_neg ha]
      rcases List.mem_cons.mp hx with h | h
      · exact h ▸ List.mem_cons_self _ _
      · exact List.mem_cons_of_mem _ (ih h)

theorem length_pqErase_of_mem {e : K × String} :
    ∀ {l : List (K × String)}, e ∈ l → l.length = (pqErase l e).length + 1 := by
  intro l
  induction l with
  | nil => simp
  | cons a as ih =>
    intro h
    by_cases ha : a = e
    · simp [pqErase, if_pos ha]
    · rcases List.mem_cons.mp h with h' | h'
      · exact absurd h'.symm ha
      · simp only [pqErase, if_neg ha, List.length_cons, ih h']

theorem not_mem_pqErase_cons {l : List (K × String)} {x y : K × String}
    (hx : x ∉ pqErase l x) (hxy : y ≠ x) : x ∉ pqErase (y :: l) x := by
  rw [pqErase, if_neg hxy]
  intro hmem
  rcases List.mem_cons.mp hmem with h | h
  · exact hxy h.symm
  · exact hx h

theorem not_mem_pqErase_of_erase {e x : K × String} :
    ∀ {l : List (K × String)}, x ∉ pqErase l x → x ∉ pqErase (pqErase l e) x := by
  intro l
  induction l with
  | nil => simp [pqErase]
  | cons a as ih =>
    intro hx
    by_cases hae : a = e
    · rw [pqErase, if_pos hae]
      by_cases hax : a = x
      · rw [pqErase, if_pos hax] at hx
        exact fun hc => hx (pqErase_subset hc)
      · rw [pqErase, if_neg hax] at hx
        exact fun hc => hx (List.mem_cons_of_mem _ hc)
    · rw [pqErase, if_neg hae]
      by_cases hax : a = x
      · rw [pqErase, if_pos hax]
        rw [pqErase, if_pos hax] at hx
        exact fun hc => hx (pqErase_subset hc)
      · rw [pqErase, if_neg hax]
        rw [pqErase, if_neg hax] at hx
        intro hc
        rcases List.mem_cons.mp hc with h | h
        · exact hax h.symm
        · exact ih (fun hm => hx (List.mem_cons_of_mem _ hm)) h

theorem pmin_eq_or (a b : K × String) : pmin a b = a ∨ pmin a b = b := by
  unfold pmin
  split
  · exact Or.inr rfl
  · exact Or.inl rfl

theorem pmin_fst_le (a b : K × String) : (pmin a b).1 ≤ a.1 ∧ (pmin a b).1 ≤ b.1 := by
  unfold pmin
  split
  · next hc =>
    refine ⟨?_, le_refl _⟩
    rcases hc with h | h
    · exact le_of_lt h
    · exact le_of_eq h.1
  · next hc =>
    push_neg at hc
    exact ⟨le_refl _, hc.1⟩

theorem foldl_pmin_mem (l : List (K × String)) :
    ∀ a : K × String, l.foldl pmin a ∈ a :: l := by
  induction l with
  | nil => simp
  | cons b bs ih =>
    intro a
    have h := ih (pmin a b)
    rcases List.mem_cons.mp h with h' | h'
    · rcases pmin_eq_or a b with hab | hab
      · rw [List.foldl_cons, h', hab]
        exact List.mem_cons_self _ _
      · rw [List.foldl_cons, h', hab]
        exact List.mem_cons_of_mem _ (List.mem_cons_self _ _)
    · exact List.mem_cons_of_mem _ (List.mem_cons_of_mem _ h')

theorem foldl_pmin_le (l : List (K × String)) :
    ∀ a : K × String, (l.foldl pmin a).1 ≤ a.1 ∧ ∀ x ∈ l, (l.foldl pmin a).1 ≤ x.1 := by
  induction l with
  | nil => simp
  | cons b bs ih =>
    intro a
    have h := ih (pmin a b)
    have hle := pmin_fst_le a b
    refine ⟨h.1.trans hle.1, ?_⟩
    intro x hx
    rcases List.mem_cons.mp hx with h' | h'
    · exact h' ▸ h.1.trans hle.2
    · exact h.2 x h'

theorem minEntry_eq_none {l : List (K × String)} : minEntry l = none ↔ l = [] := by
  cases l <;> simp [minEntry]

theorem minEntry_mem {l : List (K × String)} {e : K × String}
    (h : minEntry l = some e) : e ∈ l := by
  cases l with
  | nil => simp [minEntry] at h
  | cons a as =>
    rw [minEntry, Option.some.injEq] at h
    exact h ▸ foldl_pmin_mem as a

theorem minEntry_le {l : List (K × String)} {e : K × String}
    (h : minEntry l = some e) : ∀ x ∈ l, e.1 ≤ x.1 := by
  cases l with
  | nil => simp [minEntry] at h
  | cons a as =>
    rw [minEntry, Option.some.injEq] at h
    intro x hx
    rcases List.mem_cons.mp hx with h' | h'
    · exact h' ▸ h ▸ (foldl_pmin_le as a).1
    · exact h ▸ (foldl_pmin_le as a).2 x h'

/- ===================== lemmas: GeoMath ===================== -/

theorem atan2_zero_one : atan2 (0 : ℝ) 1 = 0 := by
  unfold atan2
  have h : (⟨1, 0⟩ : ℂ) = 1 := Complex.ext (by simp) (by simp)
  rw [h, Complex.arg_one]

theorem haversine_self (lat lon : ℝ) : haversine lat lon lat lon = 0 := by
  simp only [haversine, sub_self]
  have h0 : rad 0 = 0 := by simp [rad]
  simp [h0, Real.sqrt_one, atan2_zero_one]

theorem haversine_comm (a b c d : ℝ) : haversine a b c d = haversine c d a b := by
  simp only [haversine]
  have h1 : rad (a - c) = -(rad (c - a)) := by unfold rad; ring
  have h2 : rad (b - d) = -(rad (d - b)) := by unfold rad; ring
  rw [h1, h2, neg_div, neg_div, Real.sin_neg, Real.sin_neg]
  ring_nf

theorem haversine_nonneg (a b c d : ℝ) : 0 ≤ haversine a b c d := by
  simp only [haversine]
  refine mul_nonneg (mul_nonneg (by norm_num) (by norm_num [earthR])) ?_
  unfold atan2
  exact Complex.arg_nonneg_iff.mpr (by simp [Real.sqrt_nonneg])

theorem haversine_le_pi_mul (a b c d : ℝ) :
    haversine a b c d ≤ 2 * earthR * Real.pi := by
  simp only [haversine]
  refine mul_le_mul_of_nonneg_left ?_ (by norm_num [earthR])
  exact Complex.arg_le_pi _

theorem haversine_lt_big (a b c d : ℝ) : haversine a b c d < (10 : ℝ) ^ 18 := by
  refine lt_of_le_of_lt (haversine_le_pi_mul a b c d) ?_
  have hpi := Real.pi_le_four
  norm_num [earthR]
  nlinarith [Real.pi_pos]

/-- C8: `GeoMath.distance` (the haversine formula with Earth radius
6 371 000 m) is a pure total function of its four coordinates; it
returns exactly 0 when the two input points are identical, it is
symmetric in the two coordinate pairs, and it is non-negative for every
pair of input coordinates. -/
theorem C8_haversine_props (lat lon a b c d : ℝ) :
    haversine lat lon lat lon = 0 ∧
    haversine a b c d = haversine c d a b ∧
    0 ≤ haversine a b c d :=
  ⟨haversine_self lat lon, haversine_comm a b c d, haversine_nonneg a b c d⟩

/- ===================== lemmas: NodeLocator ===================== -/

theorem bestFold (F : String × Node → ℝ) :
    ∀ (l : List (String × Node)) (acc : String × ℝ),
      (l.foldl (fun best kv => if F kv < best.2 then (kv.2.id, F kv) else best) acc = acc
        ∨ ∃ kv ∈ l,
            l.foldl (fun best kv => if F kv < best.2 then (kv.2.id, F kv) else best) acc
              = (kv.2.id, F kv))
      ∧ (l.foldl (fun best kv => if F kv < best.2 then (kv.2.id, F kv) else best) acc).2 ≤ acc.2
      ∧ ∀ kv ∈ l,
          (l.foldl (fun best kv => if F kv < best.2 then (kv.2.id, F kv) else best) acc).2
            ≤ F kv := by
  intro l
  induction l with
  | nil => simp
  | cons p ps ih =>
    intro acc
    by_cases h : F p < acc.2
    · have hp := ih (p.2.id, F p)
      rw [List.foldl_cons, if_pos h]
      refine ⟨?_, ?_, ?_⟩
      · rcases hp.1 with h1 | ⟨kv, hkv, h1⟩
        · exact Or.inr ⟨p, List.mem_cons_self _ _, h1⟩
        · exact Or.inr ⟨kv, List.mem_cons_of_mem _ hkv, h1⟩
      · exact hp.2.1.trans (le_of_lt h)
      · intro kv hkv
        rcases List.mem_cons.mp hkv with h1 | h1
        · exact h1 ▸ hp.2.1
        · exact hp.2.2 kv h1
    · have hp := ih acc
      rw [List.foldl_cons, if_neg h]
      refine ⟨?_, hp.2.1, ?_⟩
      · rcases hp.1 with h1 | ⟨kv, hkv, h1⟩
        · exact Or.inl h1
        · exact Or.inr ⟨kv, List.mem_cons_of_mem _ hkv, h1⟩
      · intro kv hkv
        rcases List.mem_cons.mp hkv with h1 | h1
        · exact h1 ▸ hp.2.1.trans (le_of_not_lt h)
        · exact hp.2.2 kv h1

/-- C5: nearest-node lookup scans all registered nodes by great-circle
distance and returns the id of a node at minimum distance when that
minimum is at most 20 meters, and the NotFound result (the empty
string) when the minimum distance exceeds 20 meters. -/
theorem C5_findNode_snap (ns : List (String × Node)) (lat lon : ℚ) (hne : ns ≠ []) :
    ∃ kv ∈ ns,
      (∀ kv' ∈ ns, havQ lat lon kv.2.lat kv.2.lon ≤ havQ lat lon kv'.2.lat kv'.2.lon) ∧
      findNode ns lat lon =
        if havQ lat lon kv.2.lat kv.2.lon ≤ 20 then kv.2.id else "" := by
  obtain ⟨p, ps, rfl⟩ := List.exists_cons_of_ne_nil hne
  have hb := bestFold (fun kv => havQ lat lon kv.2.lat kv.2.lon) (p :: ps) ("", (10 : ℝ) ^ 18)
  rcases hb.1 with h1 | ⟨kv, hkv, h1⟩
  · exfalso
    have hle := hb.2.2 p (List.mem_cons_self _ _)
    rw [h1] at hle
    exact absurd (lt_of_le_of_lt hle (haversine_lt_big _ _ _ _)) (lt_irrefl _)
  · refine ⟨kv, hkv, ?_, ?_⟩
    · intro kv' hkv'
      have := hb.2.2 kv' hkv'
      rw [h1] at this
      exact this
    · simp only [findNode]
      rw [h1]

/-- Witness for C5: a single node at the query point itself (distance
0 ≤ 20), instantiating the snap theorem. -/
theorem C5_findNode_snap_witness :
    ([("A", (⟨"A", 0, 0⟩ : Node))] : List (String × Node)) ≠ [] ∧
    ∃ kv ∈ ([("A", (⟨"A", 0, 0⟩ : Node))] : List (String × Node)),
      (∀ kv' ∈ ([("A", (⟨"A", 0, 0⟩ : Node))] : List (String × Node)),
        havQ 0 0 kv.2.lat kv.2.lon ≤ havQ 0 0 kv'.2.lat kv'.2.lon) ∧
      findNode [("A", (⟨"A", 0, 0⟩ : Node))] 0 0 =
        if havQ 0 0 kv.2.lat kv.2.lon ≤ 20 then kv.2.id else "" :=
  ⟨by simp, C5_findNode_snap _ 0 0 (by simp)⟩

/- ===================== lemmas: RandomSampler ===================== -/

theorem mcWalk_zero (adjf : String → List (String × K)) (goal : String)
    (rng : ℕ → ℕ) (ctr : ℕ) (cur : String) (path : List String) :
    mcWalk adjf goal rng 0 ctr cur path = (path, cur, ctr) := rfl

theorem mcTrials_budget_zero (adjf : String → List (String × K))
    (einfo : List (String × List (String × EdgeInfo K)))
    (start goal : String) (rng : ℕ → ℕ) (hsg : start ≠ goal) :
    ∀ (m ctr : ℕ) (b : List String × ℕ × K),
      mcTrials adjf einfo start goal 0 rng m ctr b = b.1 := by
  intro m
  induction m with
  | zero => intro ctr b; rfl
  | succ m ih =>
    intro ctr b
    show (if start = goal then _ else _) = b.1
    rw [if_neg hsg]
    exact ih ctr b

/-- C7 corrected: the random sampler returns the empty (no-path-found)
result whenever the trial count M is 0, and whenever the step budget N
is 0 provided start ≠ goal (with start = goal every trial is an
immediate hit, see the counterexample). -/
theorem C7_sampler_empty (adjf : String → List (String × K))
    (einfo : List (String × List (String × EdgeInfo K)))
    (start goal : String) (rng : ℕ → ℕ) :
    (∀ N, monteCarlo adjf einfo start goal 0 N rng = []) ∧
    (start ≠ goal → ∀ M, monteCarlo adjf einfo start goal M 0 rng = []) := by
  constructor
  · intro N
    rfl
  · intro hsg M
    exact mcTrials_budget_zero adjf einfo start goal rng hsg M 0 _

/-- Witness for C7 at concrete inputs (M = 0 with N = 5, and N = 0 with
start ≠ goal). -/
theorem C7_sampler_empty_witness :
    monteCarlo (fun _ => ([] : List (String × ℚ))) [] "A" "B" 0 5 (fun _ => 0) = [] ∧
    monteCarlo (fun _ => ([] : List (String × ℚ))) [] "A" "B" 7 0 (fun _ => 0) = [] :=
  ⟨(C7_sampler_empty _ _ "A" "B" _).1 5,
    (C7_sampler_empty _ _ "A" "B" _).2 (by decide) 7⟩

/-- Counterexample to C7 as stated: with start = goal, one trial and a
step budget of 0, the walk is an immediate hit and the sampler returns
the single-node path, not the empty no-path result. -/
theorem C7_sampler_counterexample :
    monteCarlo (fun _ => ([] : List (String × ℚ))) [] "A" "A" 1 0 (fun _ => 0) = ["A"] := by
  decide

/- ===================== lemmas: oneway handling ===================== -/

theorem onewayTrue_iff (s : String) : onewayTrue s = true ↔ onewaySpec s := by
  by_cases h : s = ""
  · subst h
    constructor
    · intro hc
      simp [onewayTrue] at hc
    · intro hc
      exfalso
      revert hc
      decide
  · simp only [onewayTrue, onewaySpec, Bool.and_eq_true, Bool.or_eq_true, beq_iff_eq,
      Bool.not_eq_true', beq_eq_false_iff_ne, ne_eq]
    tauto

theorem adjCount_push (l : List (String × List (String × ℝ))) (k : String)
    (x : String × ℝ) :
    adjCount (aupd l k [] (· ++ [x])) = adjCount l + 1 := by
  induction l with
  | nil => simp [aupd, adjCount]
  | cons p ps ih =>
    by_cases h : p.1 = k
    · simp [aupd, adjCount, h]
      omega
    · simp only [aupd, if_neg h, adjCount, List.map_cons, List.sum_cons] at *
      omega

/-- C3 amended, positive part: the builder of
`smart_mobility_shortest_path.cpp` inserts exactly one directed edge
(source→target) when the resolved oneway value matches the tokens
case-insensitively, and exactly two directed edges (both directions,
with the same length and the same road name) otherwise. -/
theorem C3_oneway_smart (keym : List (String × String)) (st : LoadState ℝ)
    (e : EdgeElem) :
    ∃ len : ℝ,
      (onewaySpec (parseEdgeData keym e.data).oneway →
        (loadEdgeSmart keym st e).adj = aupd st.adj e.source [] (· ++ [(e.target, len)]) ∧
        (loadEdgeSmart keym st e).edgeInfo
          = aupd st.edgeInfo e.source []
              (fun m => aset m e.target ⟨len, (parseEdgeData keym e.data).road⟩) ∧
        adjCount (loadEdgeSmart keym st e).adj = adjCount st.adj + 1) ∧
      (¬ onewaySpec (parseEdgeData keym e.data).oneway →
        (loadEdgeSmart keym st e).adj
          = aupd (aupd st.adj e.source [] (· ++ [(e.target, len)]))
              e.target [] (· ++ [(e.source, len)]) ∧
        (loadEdgeSmart keym st e).edgeInfo
          = aupd (aupd st.edgeInfo e.source []
                (fun m => aset m e.target ⟨len, (parseEdgeData keym e.data).road⟩))
              e.target [] (fun m => aset m e.source ⟨len, (parseEdgeData keym e.data).road⟩) ∧
        adjCount (loadEdgeSmart keym st e).adj = adjCount st.adj + 2) := by
  refine ⟨smartLen keym st e, ?_, ?_⟩
  · intro hone
    have ht : onewayTrue (parseEdgeData keym e.data).oneway = true :=
      (onewayTrue_iff _).mpr hone
    constructor
    · simp only [loadEdgeSmart, ht, if_true]
    constructor
    · simp only [loadEdgeSmart, ht, if_true]
    · simp only [loadEdgeSmart, ht, if_true, adjCount_push]
  · intro hone
    have ht : onewayTrue (parseEdgeData keym e.data).oneway = false := by
      rcases Bool.eq_false_or_eq_true (onewayTrue (parseEdgeData keym e.data).oneway)
        with h | h
      · exact absurd ((onewayTrue_iff _).mp h) hone
      · exact h
    constructor
    · simp only [loadEdgeSmart, ht, Bool.false_eq_true, if_false]
    constructor
    · simp only [loadEdgeSmart, ht, Bool.false_eq_true, if_false]
    · simp only [loadEdgeSmart, ht, Bool.false_eq_true, if_false, adjCount_push]

/-- Witness for C3 at a concrete oneway edge element. -/
theorem C3_oneway_smart_witness :
    adjCount (loadEdgeSmart [("k1", "oneway")] (LoadState.empty ℝ)
        { source := "X", target := "Y", data := [⟨"k1", "true", some 1⟩] }).adj
      = adjCount (LoadState.empty ℝ).adj + 1 := by
  obtain ⟨len, h1, _⟩ := C3_oneway_smart [("k1", "oneway")] (LoadState.empty ℝ)
    { source := "X", target := "Y", data := [⟨"k1", "true", some 1⟩] }
  refine (h1 ?_).2.2
  decide

/-- Counterexample to C3 as stated: the builder of `project1.cpp` never
reads the oneway attribute; for the oneway-true edge element of
`onewayDoc` it inserts two directed edges, not one. -/
theorem C3_p1_counterexample :
    onewaySpec "true" ∧ adjCount (loadP1 onewayDoc).adj = 2 := by
  constructor
  · decide
  · show adjCount (loadEdgeP1 (LoadState.empty ℝ) _).adj = 2
    simp [loadEdgeP1, LoadState.empty, adjCount, aupd, aensure, alookup]

/- ===================== lemmas: builder invariants ===================== -/

theorem foldl_inv {σ α : Type} (P : σ → Prop) (f : σ → α → σ) :
    ∀ (l : List α) (s : σ), P s → (∀ s' a, a ∈ l → P s' → P (f s' a)) →
      P (l.foldl f s) := by
  intro l
  induction l with
  | nil =>
    intro s hs _
    exact hs
  | cons a as ih =>
    intro s hs hstep
    exact ih (f s a) (hstep s a (List.mem_cons_self _ _) hs)
      (fun s' a' ha' => hstep s' a' (List.mem_cons_of_mem _ ha'))

theorem isSome_aensure {α : Type} (l : List (String × α)) (k k' : String) (d : α)
    (h : (alookup l k').isSome) : (alookup (aensure l k d) k').isSome := by
  rw [alookup_aensure]
  split_ifs <;> simp_all

theorem isSome_aensure_self {α : Type} (l : List (String × α)) (k : String) (d : α) :
    (alookup (aensure l k d) k).isSome := by
  rw [alookup_aensure]
  simp

theorem isSome_aset {α : Type} (l : List (String × α)) (k k' : String) (v : α)
    (h : (alookup l k').isSome) : (alookup (aset l k v) k').isSome := by
  rw [alookup_aset]
  split_ifs <;> simp_all

theorem isSome_aset_self {α : Type} (l : List (String × α)) (k : String) (v : α) :
    (alookup (aset l k v) k).isSome := by
  rw [alookup_aset]
  simp

theorem mem_aset {α : Type} {m : List (String × α)} {k : String} {v : α} {p : String × α} :
    p ∈ aset m k v → p ∈ m ∨ p = (k, v) := by
  induction m with
  | nil => simp [aset]
  | cons q qs ih =>
    intro hp
    by_cases h : q.1 = k
    · rw [aset, if_pos h] at hp
      rcases List.mem_cons.mp hp with h' | h'
      · exact Or.inr h'
      · exact Or.inl (List.mem_cons_of_mem _ h')
    · rw [aset, if_neg h] at hp
      rcases List.mem_cons.mp hp with h' | h'
      · exact Or.inl (h' ▸ List.mem_cons_self _ _)
      · rcases ih h' with h'' | h''
        · exact Or.inl (List.mem_cons_of_mem _ h'')
        · exact Or.inr h''

theorem adj_push_cases {K : Type} [LinearOrderedField K]
    {adjm : List (String × List (String × K))} {s t : String} {len : K}
    {k : String} {out : List (String × K)}
    (h : alookup (aupd adjm s [] (· ++ [(t, len)])) k = some out) :
    ∀ vw ∈ out, (∃ old, alookup adjm k = some old ∧ vw ∈ old) ∨ vw = (t, len) := by
  intro vw hvw
  rw [alookup_aupd] at h
  split_ifs at h with hk
  · rw [Option.some.injEq] at h
    subst hk
    rw [← h] at hvw
    rcases List.mem_append.mp hvw with h' | h'
    · cases hs : alookup adjm s with
      | none =>
        rw [hs] at h'
        simp at h'
      | some old =>
        rw [hs] at h'
        exact Or.inl ⟨old, rfl, by simpa using h'⟩
    · simp at h'
      exact Or.inr h'
  · exact Or.inl ⟨out, h, hvw⟩

theorem adj_push_key {K : Type} [LinearOrderedField K]
    {adjm : List (String × List (String × K))} {s : String} {len : K} {t : String}
    {k : String} {out : List (String × K)}
    (h : alookup (aupd adjm s [] (· ++ [(t, len)])) k = some out) :
    k = s ∨ (alookup adjm k).isSome := by
  rw [alookup_aupd] at h
  split_ifs at h with hk
  · exact Or.inl hk.symm
  · exact Or.inr (by simp [h])

theorem einfo_set_cases {K : Type} [LinearOrderedField K]
    {einfo : List (String × List (String × EdgeInfo K))} {s t : String} {ei : EdgeInfo K}
    {k : String} {out : List (String × EdgeInfo K)}
    (h : alookup (aupd einfo s [] (fun m => aset m t ei)) k = some out) :
    ∀ p ∈ out, (∃ old, alookup einfo k = some old ∧ p ∈ old) ∨ p = (t, ei) := by
  intro p hp
  rw [alookup_aupd] at h
  split_ifs at h with hk
  · rw [Option.some.injEq] at h
    subst hk
    rw [← h] at hp
    rcases mem_aset hp with h' | h'
    · cases hs : alookup einfo s with
      | none =>
        rw [hs] at h'
        simp at h'
      | some old =>
        rw [hs] at h'
        exact Or.inl ⟨old, rfl, by simpa using h'⟩
    · exact Or.inr h'
  · exact Or.inl ⟨out, h, hp⟩

theorem loadEdgeP1_inv (st : LoadState ℝ) (e : EdgeElem) (h : GoodBuild st) :
    GoodBuild (loadEdgeP1 st e) := by
  obtain ⟨hc, hn, he⟩ := h
  have hsrc : (alookup (loadEdgeP1 st e).nodes e.source).isSome :=
    isSome_aensure _ _ _ _ (isSome_aensure_self _ _ _)
  have htgt : (alookup (loadEdgeP1 st e).nodes e.target).isSome :=
    isSome_aensure_self _ _ _
  have hmono : ∀ x, (alookup st.nodes x).isSome →
      (alookup (loadEdgeP1 st e).nodes x).isSome :=
    fun x hx => isSome_aensure _ _ _ _ (isSome_aensure _ _ _ _ hx)
  refine ⟨?_, ?_, ?_⟩
  · intro k l hkl
    have hkey : k = e.target ∨ k = e.source ∨ (alookup st.adj k).isSome := by
      rcases adj_push_key hkl with h1 | h1
      · exact Or.inl h1
      · obtain ⟨out1, hout1⟩ := Option.isSome_iff_exists.mp h1
        rcases adj_push_key hout1 with h2 | h2
        · exact Or.inr (Or.inl h2)
        · exact Or.inr (Or.inr h2)
    constructor
    · rcases hkey with rfl | rfl | hk
      · exact htgt
      · exact hsrc
      · obtain ⟨old, hold⟩ := Option.isSome_iff_exists.mp hk
        exact hmono _ (hc k old hold).1
    · intro vw hvw
      rcases adj_push_cases hkl vw hvw with ⟨mid, hmid, hvw2⟩ | rfl
      · rcases adj_push_cases hmid vw hvw2 with ⟨old, hold, hvw3⟩ | rfl
        · exact hmono _ ((hc k old hold).2 vw hvw3)
        · exact htgt
      · exact hsrc
  · intro k l hkl vw hvw
    rcases adj_push_cases hkl vw hvw with ⟨mid, hmid, hvw2⟩ | rfl
    · rcases adj_push_cases hmid vw hvw2 with ⟨old, hold, hvw3⟩ | rfl
      · exact hn k old hold vw hvw3
      · exact haversine_nonneg _ _ _ _
    · exact haversine_nonneg _ _ _ _
  · intro k m hkm p hp
    rcases einfo_set_cases hkm p hp with ⟨mid, hmid, hp2⟩ | rfl
    · rcases einfo_set_cases hmid p hp2 with ⟨old, hold, hp3⟩ | rfl
      · exact he k old hold p hp3
      · exact haversine_nonneg _ _ _ _
    · exact haversine_nonneg _ _ _ _

theorem loadNode_inv (keym : List (String × String)) (st : LoadState ℝ) (ne : NodeElem)
    (h : GoodBuild st) : GoodBuild (loadNode keym st ne) := by
  obtain ⟨hc, hn, he⟩ := h
  refine ⟨?_, ?_, he⟩
  · intro k l hkl
    rw [show (loadNode keym st ne).adj = aensure st.adj ne.id [] from rfl,
      alookup_aensure] at hkl
    split_ifs at hkl with hk
    · rw [Option.some.injEq] at hkl
      subst hk
      constructor
      · exact isSome_aset_self _ _ _
      · intro vw hvw
        rw [← hkl] at hvw
        cases hs : alookup st.adj ne.id with
        | none =>
          rw [hs] at hvw
          simp at hvw
        | some old =>
          rw [hs] at hvw
          exact isSome_aset _ _ _ _ ((hc _ old hs).2 vw (by simpa using hvw))
    · refine ⟨isSome_aset _ _ _ _ (hc k l hkl).1, ?_⟩
      intro vw hvw
      exact isSome_aset _ _ _ _ ((hc k l hkl).2 vw hvw)
  · intro k l hkl
    rw [show (loadNode keym st ne).adj = aensure st.adj ne.id [] from rfl,
      alookup_aensure] at hkl
    split_ifs at hkl with hk
    · rw [Option.some.injEq] at hkl
      intro vw hvw
      rw [← hkl] at hvw
      cases hs : alookup st.adj ne.id with
      | none =>
        rw [hs] at hvw
        simp at hvw
      | some old =>
        rw [hs] at hvw
        exact hn _ old hs vw (by simpa using hvw)
    · exact hn k l hkl

/-- Counterexample to C4 as stated: `negLenDoc` loads successfully in
`smart_mobility_shortest_path.cpp`, yet the adjacency mentions the id X
with no Node entry, and the stored edge length is the negative declared
value −5. -/
theorem C4_counterexample :
    ¬ NodesCoverAdj (loadSmart negLenDoc).nodes (loadSmart negLenDoc).adj ∧
      ¬ AdjNonneg (loadSmart negLenDoc).adj := by
  have hone : onewayTrue "" = false := by decide
  have hadj : alookup (loadSmart negLenDoc).adj "X" = some [("Y", ((-5 : ℚ) : ℝ))] := by
    simp [loadSmart, loadEdgeSmart, smartLen, parseEdgeData, attrOf, keyMap, negLenDoc,
      LoadState.empty, aset, aupd, alookup, hone]
  have hnodes : alookup (loadSmart negLenDoc).nodes "X" = none := by
    simp [loadSmart, loadEdgeSmart, smartLen, parseEdgeData, attrOf, keyMap, negLenDoc,
      LoadState.empty, aset, aupd, alookup, hone]
  constructor
  · intro h
    have := (h "X" _ hadj).1
    rw [hnodes] at this
    simp at this
  · intro h
    have := h "X" _ hadj ("Y", ((-5 : ℚ) : ℝ)) (List.mem_cons_self _ _)
    norm_num at this

theorem goodBuild_empty : GoodBuild (LoadState.empty ℝ) := by
  refine ⟨?_, ?_, ?_⟩ <;> intro k l hkl <;> simp [LoadState.empty, alookup] at hkl

theorem push_inv (nodes : List (String × Node))
    (adjm : List (String × List (String × ℝ)))
    (einfo : List (String × List (String × EdgeInfo ℝ)))
    (s t : String) (len : ℝ) (road : String)
    (hs : (alookup nodes s).isSome) (ht : (alookup nodes t).isSome) (h0 : 0 ≤ len)
    (hc : NodesCoverAdj nodes adjm) (hn : AdjNonneg adjm) (he : EInfoNonneg einfo) :
    NodesCoverAdj nodes (aupd adjm s [] (· ++ [(t, len)])) ∧
    AdjNonneg (aupd adjm s [] (· ++ [(t, len)])) ∧
    EInfoNonneg (aupd einfo s [] (fun m => aset m t ⟨len, road⟩)) := by
  refine ⟨?_, ?_, ?_⟩
  · intro k l hkl
    constructor
    · rcases adj_push_key hkl with rfl | hk
      · exact hs
      · obtain ⟨old, hold⟩ := Option.isSome_iff_exists.mp hk
        exact (hc k old hold).1
    · intro vw hvw
      rcases adj_push_cases hkl vw hvw with ⟨old, hold, hv⟩ | rfl
      · exact (hc k old hold).2 vw hv
      · exact ht
  · intro k l hkl vw hvw
    rcases adj_push_cases hkl vw hvw with ⟨old, hold, hv⟩ | rfl
    · exact hn k old hold vw hv
    · exact h0
  · intro k m hkm p hp
    rcases einfo_set_cases hkm p hp with ⟨old, hold, hp2⟩ | rfl
    · exact he k old hold p hp2
    · exact h0

theorem loadEdgeSmart_nodes (keym : List (String × String)) (st : LoadState ℝ)
    (e : EdgeElem) : (loadEdgeSmart keym st e).nodes = st.nodes := by
  simp only [loadEdgeSmart]
  split <;> rfl

theorem havQ_nonneg (a b c d : ℚ) : 0 ≤ havQ a b c d :=
  haversine_nonneg _ _ _ _

theorem smartLen_nonneg (keym : List (String × String)) (st : LoadState ℝ) (e : EdgeElem)
    (hlen : ∀ q : ℚ, (parseEdgeData keym e.data).length = some q → 0 ≤ q) :
    0 ≤ smartLen keym st e := by
  unfold smartLen
  cases hq : (parseEdgeData keym e.data).length with
  | some q =>
    have h7 := hlen q hq
    show (0 : ℝ) ≤ (q : ℝ)
    exact_mod_cast h7
  | none =>
    cases alookup st.nodes e.source with
    | none => simp
    | some ns =>
      cases alookup st.nodes e.target with
      | none => simp
      | some nt => simpa using havQ_nonneg ns.lat ns.lon nt.lat nt.lon

theorem loadEdgeSmart_inv (keym : List (String × String)) (st : LoadState ℝ)
    (e : EdgeElem)
    (hsrc : (alookup st.nodes e.source).isSome)
    (htgt : (alookup st.nodes e.target).isSome)
    (h0 : 0 ≤ smartLen keym st e)
    (h : GoodBuild st) : GoodBuild (loadEdgeSmart keym st e) := by
  obtain ⟨hc, hn, he⟩ := h
  have hno : (loadEdgeSmart keym st e).nodes = st.nodes := loadEdgeSmart_nodes keym st e
  by_cases hone : onewayTrue (parseEdgeData keym e.data).oneway = true
  · have hadj : (loadEdgeSmart keym st e).adj
        = aupd st.adj e.source [] (· ++ [(e.target, smartLen keym st e)]) := by
      simp only [loadEdgeSmart, hone, if_true]
    have hei : (loadEdgeSmart keym st e).edgeInfo
        = aupd st.edgeInfo e.source []
            (fun m => aset m e.target ⟨smartLen keym st e, (parseEdgeData keym e.data).road⟩) := by
      simp only [loadEdgeSmart, hone, if_true]
    have hp := push_inv st.nodes st.adj st.edgeInfo e.source e.target
      (smartLen keym st e) (parseEdgeData keym e.data).road hsrc htgt h0 hc hn he
    exact ⟨by rw [hno, hadj]; exact hp.1, by rw [hadj]; exact hp.2.1,
      by rw [hei]; exact hp.2.2⟩
  · have hone' : onewayTrue (parseEdgeData keym e.data).oneway = false :=
      Bool.not_eq_true _ ▸ (by simpa using hone)
    have hadj : (loadEdgeSmart keym st e).adj
        = aupd (aupd st.adj e.source [] (· ++ [(e.target, smartLen keym st e)]))
            e.target [] (· ++ [(e.source, smartLen keym st e)]) := by
      simp only [loadEdgeSmart, hone', Bool.false_eq_true, if_false]
    have hei : (loadEdgeSmart keym st e).edgeInfo
        = aupd (aupd st.edgeInfo e.source []
              (fun m => aset m e.target ⟨smartLen keym st e, (parseEdgeData keym e.data).road⟩))
            e.target []
            (fun m => aset m e.source ⟨smartLen keym st e, (parseEdgeData keym e.data).road⟩) := by
      simp only [loadEdgeSmart, hone', Bool.false_eq_true, if_false]
    have hp1 := push_inv st.nodes st.adj st.edgeInfo e.source e.target
      (smartLen keym st e) (parseEdgeData keym e.data).road hsrc htgt h0 hc hn he
    have hp2 := push_inv st.nodes _ _ e.target e.source
      (smartLen keym st e) (parseEdgeData keym e.data).road htgt hsrc h0
      hp1.1 hp1.2.1 hp1.2.2
    exact ⟨by rw [hno, hadj]; exact hp2.1, by rw [hadj]; exact hp2.2.1,
      by rw [hei]; exact hp2.2.2⟩

theorem nodesFold_good (keym : List (String × String)) (l : List NodeElem)
    (st : LoadState ℝ) (h : GoodBuild st) : GoodBuild (l.foldl (loadNode keym) st) :=
  foldl_inv GoodBuild (loadNode keym) l st h (fun s a _ hs => loadNode_inv keym s a hs)

theorem nodesFold_isSome (keym : List (String × String)) :
    ∀ (l : List NodeElem) (st : LoadState ℝ) (x : String),
      ((∃ ne ∈ l, ne.id = x) ∨ (alookup st.nodes x).isSome) →
      (alookup ((l.foldl (loadNode keym) st).nodes) x).isSome := by
  intro l
  induction l with
  | nil =>
    intro st x h
    rcases h with ⟨ne, hne, _⟩ | hx
    · simp at hne
    · exact hx
  | cons ne nes ih =>
    intro st x h
    apply ih
    rcases h with ⟨ne', hne', hid⟩ | hx
    · rcases List.mem_cons.mp hne' with rfl | h'
      · right
        rw [show (loadNode keym st ne').nodes = aset st.nodes ne'.id (parseNode keym ne')
          from rfl, hid]
        exact hid ▸ isSome_aset_self _ _ _
      · exact Or.inl ⟨ne', h', hid⟩
    · right
      exact isSome_aset _ _ _ _ hx

/-- C4 amended: after a successful graph build every adjacency id has a
Node entry and every stored length is non-negative — unconditionally
for the `project1.cpp` builder (which default-inserts unknown endpoints
and always derives lengths by haversine), and for the
`smart_mobility_shortest_path.cpp` builder provided every edge endpoint
is a declared node and every declared finite length value is
non-negative.  (Finiteness is implicit in the model: stored lengths
live in `ℝ`; declared non-finite lengths fall back to the haversine
derivation exactly as in the source.) -/
theorem C4_graph_invariants :
    (∀ doc : GraphMLDoc, GoodBuild (loadP1 doc)) ∧
    (∀ doc : GraphMLDoc,
      (∀ e ∈ doc.edges,
        (∃ ne ∈ doc.nodes, ne.id = e.source) ∧ (∃ ne ∈ doc.nodes, ne.id = e.target)) →
      (∀ e ∈ doc.edges, ∀ q : ℚ,
        (parseEdgeData (keyMap doc) e.data).length = some q → 0 ≤ q) →
      GoodBuild (loadSmart doc)) := by
  constructor
  · intro doc
    unfold loadP1
    exact foldl_inv GoodBuild loadEdgeP1 _ _
      (nodesFold_good _ _ _ goodBuild_empty) (fun s a _ hs => loadEdgeP1_inv s a hs)
  · intro doc hends hlen
    unfold loadSmart
    have hfold := foldl_inv
      (fun st => GoodBuild st ∧
        st.nodes = (doc.nodes.foldl (loadNode (keyMap doc)) (LoadState.empty ℝ)).nodes)
      (loadEdgeSmart (keyMap doc)) doc.edges
      (doc.nodes.foldl (loadNode (keyMap doc)) (LoadState.empty ℝ))
      ⟨nodesFold_good _ _ _ goodBuild_empty, rfl⟩
      ?_
    · exact hfold.1
    · intro s e he hs
      refine ⟨loadEdgeSmart_inv _ _ _ ?_ ?_ ?_ hs.1,
        by rw [loadEdgeSmart_nodes]; exact hs.2⟩
      · rw [hs.2]
        exact nodesFold_isSome _ _ _ _ (Or.inl (hends e he).1)
      · rw [hs.2]
        exact nodesFold_isSome _ _ _ _ (Or.inl (hends e he).2)
      · exact smartLen_nonneg _ _ _ (hlen e he)

/-- Witness for C4 at the concrete well-formed document `goodDoc`,
instantiating both parts of the amended invariant theorem. -/
theorem C4_graph_invariants_witness :
    GoodBuild (loadP1 goodDoc) ∧ GoodBuild (loadSmart goodDoc) := by
  refine ⟨C4_graph_invariants.1 goodDoc, C4_graph_invariants.2 goodDoc ?_ ?_⟩
  · decide
  · intro e he q hq
    have he' : e = { source := "A", target := "B", data := [⟨"k1", "7", some 7⟩] } := by
      simpa [goodDoc] using he
    subst he'
    simp [parseEdgeData, attrOf, keyMap, goodDoc, aset, alookup] at hq
    subst hq
    norm_num

/- ===================== lemmas: concrete engine runs ===================== -/

theorem big_pos : 0 < big K := by
  unfold big
  positivity

/-- C2 (the code evaluated at the failing input): on the 4-cycle with a
10-second delay registered at node B, the engine of
`smart_mobility_shortest_path.cpp` never adds its `lightDelay` variable
to the relaxation cost, charges the raw length in meters, and returns
route A-B-C; the engine of `project1.cpp`, which does implement
cost = length / 13.9 + delay (pair-keyed), returns A-D-C with total
cost 2000/139 ≈ 14.39 s as the claim requires. -/
theorem C2_signal_delay_eval :
    dijkstraSmart cycleGraphQ delayAtB "A" "C" 20 = some ["A", "B", "C"] ∧
    dijkstraP1 cycleGraphQ delayAtBPairs "A" "C" 20 = some (["A", "D", "C"], 2000 / 139) := by
  constructor
  · norm_num +decide [dijkstraSmart, dijkstraRun, loop, minEntry, pmin, pqErase, relaxAll,
      relax, initState, initDist, Graph.adj, alookup, walkPrev, big, cycleGraphQ,
      costSmart, nodeDelay, delayAtB]
  · norm_num +decide [dijkstraP1, dijkstraRun, loop, minEntry, pmin, pqErase, relaxAll,
      relax, initState, initDist, Graph.adj, alookup, walkPrev, big, cycleGraphQ,
      costP1, pairDelay, avgSpeed, delayAtBPairs]

/-- C9: running the engine with start = goal = n on any graph in which
n is registered returns the single-node route with total cost 0 (the
first frontier extraction is the goal itself and triggers the early
exit; the reconstruction loop stops immediately). -/
theorem C9_start_eq_goal (g : Graph K) (cst : String → String → K → K) (n : String)
    (_hn : n ∈ g.nodeIds) (fuel : ℕ) (hf : 1 ≤ fuel) :
    dijkstraRun g cst n n fuel = some ([n], 0) := by
  obtain ⟨f, rfl⟩ := Nat.exists_eq_add_of_le hf
  rw [Nat.add_comm 1 f]
  have hnb : ¬ (0 : K) ≥ big K := not_le.mpr big_pos
  simp only [dijkstraRun, initState, initDist, loop, minEntry, List.foldl_nil,
    if_pos rfl, Option.some_bind, walkPrev, hnb, if_false, if_true]
  rfl

/-- Witness for C9 on the concrete 4-cycle at node B. -/
theorem C9_start_eq_goal_witness :
    dijkstraRun cycleGraphQ (distanceOnly ℚ) "B" "B" 20 = some (["B"], 0) :=
  C9_start_eq_goal cycleGraphQ (distanceOnly ℚ) "B" (by decide) 20 (by decide)

/- ===================== lemmas: walks, chains, initial state ===================== -/

theorem mem_adjTargets {g : Graph K} {u v : String} {w : K}
    (h : (v, w) ∈ g.adj u) : v ∈ adjTargets g := by
  unfold Graph.adj at h
  cases hl : alookup g.adjL u with
  | none =>
    rw [hl] at h
    simp at h
  | some l =>
    rw [hl] at h
    have hmem : (u, l) ∈ g.adjL := alookup_mem hl
    unfold adjTargets
    rw [List.mem_toFinset]
    have : ∀ gl : List (String × List (String × K)), (u, l) ∈ gl →
        v ∈ gl.foldr (fun p acc => p.2.map Prod.fst ++ acc) [] := by
      intro gl
      induction gl with
      | nil => simp
      | cons p ps ih =>
        intro hp
        rw [List.foldr_cons, List.mem_append]
        rcases List.mem_cons.mp hp with rfl | hp'
        · exact Or.inl (List.mem_map.mpr ⟨(v, w), by simpa using h, rfl⟩)
        · exact Or.inr (ih hp')
    exact this g.adjL hmem

theorem walk_end_cases {g : Graph K} {cst : String → String → K → K} {start z : String}
    {W : K} (hwf : WFTargets g) (h : WalkW g cst start z W) :
    z = start ∨ z ∈ g.nodeIds := by
  cases h with
  | nil => exact Or.inl rfl
  | snoc _ hmem => exact Or.inr (hwf _ _ _ hmem)

theorem initDist_nonneg (g : Graph K) (start v : String) : 0 ≤ initDist g start v := by
  unfold initDist
  split_ifs
  · exact le_refl 0
  · exact le_of_lt big_pos
  · exact le_refl 0

theorem initDist_le_big (g : Graph K) (start v : String) :
    initDist g start v ≤ big K := by
  unfold initDist
  split_ifs
  · exact le_of_lt big_pos
  · exact le_refl _
  · exact le_of_lt big_pos

theorem initDist_start (g : Graph K) (start : String) : initDist g start start = 0 := by
  unfold initDist
  rw [if_pos rfl]

theorem initDist_cases (g : Graph K) (start v : String) :
    initDist g start v = 0 ∨ initDist g start v = big K := by
  unfold initDist
  split_ifs
  · exact Or.inl rfl
  · exact Or.inr rfl
  · exact Or.inl rfl

theorem initDist_lt_big {g : Graph K} {start v : String}
    (h : initDist g start v < big K) : initDist g start v = 0 := by
  rcases initDist_cases g start v with h0 | h0
  · exact h0
  · rw [h0] at h
    exact absurd h (lt_irrefl _)

theorem initDist_of_nodeId {g : Graph K} {start v : String} (hv : v ∈ g.nodeIds)
    (hne : v ≠ start) : initDist g start v = big K := by
  unfold initDist
  rw [if_neg hne, if_pos hv]

/-- Updating the predecessor of `v` keeps every chain intact provided
the chain of `v` itself holds in the updated map. -/
theorem pchain_update {p : String → Option String} {start v : String} {u : String}
    (hv : PChain (fun y => if y = v then some u else p y) start v) :
    ∀ {x : String}, PChain p start x →
      PChain (fun y => if y = v then some u else p y) start x := by
  intro x hx
  induction hx with
  | base => exact PChain.base
  | @step y z hpy _ ih =>
    by_cases hyv : y = v
    · exact hyv ▸ hv
    · exact PChain.step (by simpa [hyv] using hpy) ih

/-- A chain all of whose nodes have distance below `dist v` survives an
update of `prev v` (chains are `dist`-monotone, so such a chain never
visits `v`). -/
theorem pchain_of_lt {p : String → Option String} {start v u : String}
    {dist : String → K}
    (hmono : ∀ y z, p y = some z → dist z ≤ dist y) :
    ∀ {x : String}, PChain p start x → dist x < dist v →
      PChain (fun y => if y = v then some u else p y) start x := by
  intro x hx
  induction hx with
  | base =>
    intro _
    exact PChain.base
  | @step y z hpy _ ih =>
    intro hlt
    have hyv : y ≠ v := fun h => absurd (h ▸ hlt) (lt_irrefl _)
    exact PChain.step (by simpa [hyv] using hpy)
      (ih (lt_of_le_of_lt (hmono y z hpy) hlt))

theorem walkPrev_mono {p : String → Option String} {start : String} :
    ∀ {n : ℕ} {v : String} {l : List String}, walkPrev p start n v = some l →
      ∀ n' : ℕ, n ≤ n' → walkPrev p start n' v = some l := by
  intro n
  induction n with
  | zero =>
    intro v l h
    simp [walkPrev] at h
  | succ n ih =>
    intro v l h n' hn'
    obtain ⟨k, rfl⟩ := Nat.exists_eq_add_of_le hn'
    rw [show n + 1 + k = (n + k) + 1 by omega]
    rw [walkPrev] at h ⊢
    by_cases hv : v = start
    · rw [if_pos hv] at h ⊢
      exact h
    · rw [if_neg hv] at h ⊢
      cases hw : walkPrev p start n ((p v).getD "") with
      | none =>
        rw [hw] at h
        simp at h
      | some l' =>
        rw [hw] at h
        rw [ih hw (n + k) (by omega)]
        exact h

theorem pchain_walkPrev {p : String → Option String} {start : String} :
    ∀ {v : String}, PChain p start v →
      ∃ n l, walkPrev p start n v = some l ∧ l ≠ [] ∧ l.getLast? = some start := by
  intro v hv
  induction hv with
  | base =>
    exact ⟨1, [start], by simp [walkPrev], by simp, by simp⟩
  | @step y z hpy _ ih =>
    obtain ⟨n, l, hw, hne, hlast⟩ := ih
    by_cases hys : y = start
    · exact ⟨n + 1, [y], by rw [walkPrev, if_pos hys], by simp, by simp [hys]⟩
    · refine ⟨n + 1, y :: l, ?_, by simp, ?_⟩
      · rw [walkPrev, if_neg hys, hpy]
        simp only [Option.getD_some]
        rw [hw]
        rfl
      · obtain ⟨x, xs, rfl⟩ := List.exists_cons_of_ne_nil hne
        rw [List.getLast?_cons_cons]
        exact hlast

/- ===================== lemmas: relaxation sweep ===================== -/

theorem relax_pres {g : Graph K} {cst : String → String → K → K} {start : String}
    {u : String} {cd : K} {st : DState K} {done : Finset String}
    (hInv : MidInv g cst start u cd st done)
    {vw : String × K} (hmem : vw ∈ g.adj u) (hc : 0 ≤ cst u vw.1 vw.2) :
    MidInv g cst start u cd (relax cst cd u st vw) done ∧
    (∀ x, (relax cst cd u st vw).dist x ≤ st.dist x) ∧
    (relax cst cd u st vw).dist vw.1 ≤ cd + cst u vw.1 vw.2 ∧
    (relax cst cd u st vw).pq.length ≤ st.pq.length + 1 := by
  by_cases hrel : st.dist vw.1 > cd + cst u vw.1 vw.2
  case neg =>
    have heq : relax cst cd u st vw = st := by
      unfold relax
      rw [if_neg hrel]
    rw [heq]
    exact ⟨hInv, fun x => le_refl _, le_of_not_lt hrel, by omega⟩
  case pos =>
    have hlt : cd + cst u vw.1 vw.2 < st.dist vw.1 := hrel
    have hne : vw.1 ≠ u := by
      intro h
      apply absurd hlt
      apply not_lt.mpr
      calc st.dist vw.1 = st.dist u := by rw [h]
        _ = cd := hInv.uDist
        _ ≤ cd + cst u vw.1 vw.2 := le_add_of_nonneg_right hc
    have hneu : u ≠ vw.1 := fun h => hne h.symm
    have hvdone : vw.1 ∉ done := by
      intro h
      have h1 := hInv.doneM vw.1 h
      exact absurd (h1.trans (le_add_of_nonneg_right hc)) (not_le.mpr hlt)
    have hcost_nonneg : 0 ≤ cd + cst u vw.1 vw.2 := add_nonneg hInv.cdNonneg hc
    have hcost_le_init : cd + cst u vw.1 vw.2 < initDist g start vw.1 :=
      lt_of_lt_of_le hlt (hInv.distLe vw.1)
    have hcost_lt_big : cd + cst u vw.1 vw.2 < big K :=
      lt_of_lt_of_le hcost_le_init (initDist_le_big g start vw.1)
    have hwalkv : WalkW g cst start vw.1 (cd + cst u vw.1 vw.2) :=
      WalkW.snoc hInv.uWalk hmem
    have heq : relax cst cd u st vw =
        { dist := fun x => if x = vw.1 then cd + cst u vw.1 vw.2 else st.dist x
          prev := fun x => if x = vw.1 then some u else st.prev x
          pq := (cd + cst u vw.1 vw.2, vw.1) :: st.pq } := by
      unfold relax
      rw [if_pos hrel]
    rw [heq]
    have hdist' : ∀ x, (if x = vw.1 then cd + cst u vw.1 vw.2 else st.dist x) ≤ st.dist x := by
      intro x
      by_cases hx : x = vw.1
      · rw [if_pos hx, hx]
        exact le_of_lt hlt
      · rw [if_neg hx]
    have huchain' : PChain (fun y => if y = vw.1 then some u else st.prev y) start u := by
      refine pchain_of_lt hInv.prevMono hInv.uChain ?_
      rw [hInv.uDist]
      exact lt_of_le_of_lt (le_add_of_nonneg_right hc) hlt
    have hvchain : PChain (fun y => if y = vw.1 then some u else st.prev y) start vw.1 :=
      PChain.step (by simp) huchain'
    refine ⟨?_, hdist', by simp, by simp⟩
    refine
      { distLe := ?_, distNonneg := ?_, cdNonneg := hInv.cdNonneg, realized := ?_,
        pqWalk := ?_, pqGe := ?_, pqLtBig := ?_, pqM := ?_, pqTouched := ?_,
        pqOnce := ?_, pqCand := ?_, pqPrev := ?_, doneM := ?_, doneTri := ?_,
        doneStale := ?_, doneCand := hInv.doneCand, eWit := ?_, prevSet := ?_,
        prevChain := ?_, prevMono := ?_, uDist := ?_, uStale := ?_,
        uCand := hInv.uCand, uChain := huchain', uWalk := hInv.uWalk }
    all_goals dsimp only
    · intro v
      by_cases hv : v = vw.1
      · subst hv
        rw [if_pos rfl]
        exact le_of_lt hcost_le_init
      · rw [if_neg hv]
        exact hInv.distLe v
    · intro v
      by_cases hv : v = vw.1
      · subst hv
        rw [if_pos rfl]
        exact hcost_nonneg
      · rw [if_neg hv]
        exact hInv.distNonneg v
    · intro v
      by_cases hv : v = vw.1
      · subst hv
        rw [if_pos rfl]
        exact Or.inr hwalkv
      · rw [if_neg hv]
        exact hInv.realized v
    · intro e he
      rcases List.mem_cons.mp he with rfl | he'
      · exact hwalkv
      · exact hInv.pqWalk e he'
    · intro e he
      rcases List.mem_cons.mp he with rfl | he'
      · rw [if_pos rfl]
      · by_cases hv : e.2 = vw.1
        · rw [hv, if_pos rfl]
          exact le_of_lt (lt_of_lt_of_le hlt (hv ▸ hInv.pqGe e he'))
        · rw [if_neg hv]
          exact hInv.pqGe e he'
    · intro e he
      rcases List.mem_cons.mp he with rfl | he'
      · exact hcost_lt_big
      · exact hInv.pqLtBig e he'
    · intro e he
      rcases List.mem_cons.mp he with rfl | he'
      · exact le_add_of_nonneg_right hc
      · exact hInv.pqM e he'
    · intro e he
      rcases List.mem_cons.mp he with rfl | he'
      · unfold touched
        dsimp only
        rw [if_pos rfl]
        exact Or.inl hcost_le_init
      · have ht := hInv.pqTouched e he'
        unfold touched at ht ⊢
        dsimp only
        rcases ht with ht | ht
        · exact Or.inl (lt_of_le_of_lt (hdist' e.2) ht)
        · exact Or.inr ht
    · intro v
      by_cases hv : v = vw.1
      · subst hv
        rw [if_pos rfl]
        rw [pqErase, if_pos rfl]
        intro hcmem
        have := hInv.pqGe _ hcmem
        exact absurd hlt (not_lt.mpr this)
      · rw [if_neg hv]
        have hpair : ((st.dist v, v) : K × String) ≠ (cd + cst u vw.1 vw.2, vw.1) := by
          intro hp
          exact hv (congrArg Prod.snd hp)
        rw [pqErase, if_neg (fun hp => hv (congrArg Prod.snd hp).symm)]
        intro hcmem
        rcases List.mem_cons.mp hcmem with hp | hp
        · exact hpair hp
        · exact hInv.pqOnce v hp
    · intro e he
      rcases List.mem_cons.mp he with rfl | he'
      · exact Finset.mem_insert_of_mem (mem_adjTargets hmem)
      · exact hInv.pqCand e he'
    · intro e he
      rcases List.mem_cons.mp he with rfl | he'
      · right
        rw [if_pos rfl]
        rfl
      · by_cases hv : e.2 = vw.1
        · right
          rw [hv, if_pos rfl]
          rfl
        · rw [if_neg hv]
          exact hInv.pqPrev e he'
    · intro u' hu'
      have hu'ne : u' ≠ vw.1 := fun h => hvdone (h ▸ hu')
      rw [if_neg hu'ne]
      exact hInv.doneM u' hu'
    · intro u' hu' vw' hvw'
      have hu'ne : u' ≠ vw.1 := fun h => hvdone (h ▸ hu')
      rw [if_neg hu'ne]
      by_cases hv : vw'.1 = vw.1
      · rw [if_pos hv]
        exact le_of_lt (lt_of_lt_of_le hlt (hv ▸ hInv.doneTri u' hu' vw' hvw'))
      · rw [if_neg hv]
        exact hInv.doneTri u' hu' vw' hvw'
    · intro u' hu' e he hu2
      have hu'ne : u' ≠ vw.1 := fun h => hvdone (h ▸ hu')
      rw [if_neg hu'ne]
      rcases List.mem_cons.mp he with rfl | he'
      · exact absurd hu2.symm hu'ne
      · exact hInv.doneStale u' hu' e he' hu2
    · intro v hv
      by_cases hveq : v = vw.1
      · subst hveq
        right
        right
        rw [if_pos rfl]
        exact List.mem_cons_self _ _
      · have htv : touched g start st v := by
          unfold touched at hv ⊢
          dsimp only at hv
          rcases hv with hv | hv
          · rw [if_neg hveq] at hv
            exact Or.inl hv
          · exact Or.inr hv
        rcases hInv.eWit v htv with h | h | h
        · exact Or.inl h
        · exact Or.inr (Or.inl h)
        · right
          right
          rw [if_neg hveq]
          exact List.mem_cons_of_mem _ h
    · intro v hv
      by_cases hveq : v = vw.1
      · subst hveq
        rw [if_pos rfl]
        rfl
      · dsimp only at hv ⊢
        rw [if_neg hveq] at hv ⊢
        exact hInv.prevSet v hv
    · intro x y' hxy
      by_cases hx : x = vw.1
      · exact hx ▸ hvchain
      · rw [if_neg hx] at hxy
        exact pchain_update hvchain (hInv.prevChain x y' hxy)
    · intro x y' hxy
      by_cases hx : x = vw.1
      · subst hx
        rw [if_pos rfl] at hxy
        rw [Option.some.injEq] at hxy
        subst hxy
        rw [if_pos rfl, if_neg hneu, hInv.uDist]
        exact le_add_of_nonneg_right hc
      · rw [if_neg hx] at hxy
        rw [if_neg hx]
        by_cases hy : y' = vw.1
        · rw [if_pos hy]
          exact le_of_lt (lt_of_lt_of_le hlt (hy ▸ hInv.prevMono x y' hxy))
        · rw [if_neg hy]
          exact hInv.prevMono x y' hxy
    · rw [if_neg hneu]
      exact hInv.uDist
    · intro e he hu
      rcases List.mem_cons.mp he with rfl | he'
      · exact absurd hu hne
      · rw [if_neg hneu]
        exact hInv.uStale e he' hu

theorem relaxAll_pres {g : Graph K} {cst : String → String → K → K} {start u : String}
    {cd : K} :
    ∀ {l : List (String × K)} {st : DState K} {done : Finset String},
      MidInv g cst start u cd st done →
      (∀ vw ∈ l, vw ∈ g.adj u) →
      (∀ vw ∈ l, 0 ≤ cst u vw.1 vw.2) →
      MidInv g cst start u cd (relaxAll cst cd u l st) done ∧
      (∀ x, (relaxAll cst cd u l st).dist x ≤ st.dist x) ∧
      (∀ vw ∈ l, (relaxAll cst cd u l st).dist vw.1 ≤ cd + cst u vw.1 vw.2) ∧
      (relaxAll cst cd u l st).pq.length ≤ st.pq.length + l.length := by
  intro l
  induction l with
  | nil =>
    intro st done hInv _ _
    exact ⟨hInv, fun x => le_refl _, by simp, by simp [relaxAll]⟩
  | cons vw vws ih =>
    intro st done hInv hmem hc
    have h1 := relax_pres hInv (hmem vw (List.mem_cons_self _ _))
      (hc vw (List.mem_cons_self _ _))
    have h2 := ih h1.1 (fun x hx => hmem x (List.mem_cons_of_mem _ hx))
      (fun x hx => hc x (List.mem_cons_of_mem _ hx))
    have hshow : relaxAll cst cd u (vw :: vws) st
        = relaxAll cst cd u vws (relax cst cd u st vw) := rfl
    rw [hshow]
    refine ⟨h2.1, ?_, ?_, ?_⟩
    · intro x
      exact (h2.2.1 x).trans (h1.2.1 x)
    · intro x hx
      rcases List.mem_cons.mp hx with rfl | hx'
      · exact (h2.2.1 x.1).trans h1.2.2.1
      · exact h2.2.2.1 x hx'
    · have := h2.2.2.2
      have := h1.2.2.2
      simp only [List.length_cons]
      omega

theorem relaxAll_noop {cst : String → String → K → K} {cd : K} {u : String} :
    ∀ {l : List (String × K)} {st : DState K},
      (∀ vw ∈ l, ¬ st.dist vw.1 > cd + cst u vw.1 vw.2) →
      relaxAll cst cd u l st = st := by
  intro l
  induction l with
  | nil =>
    intro st _
    rfl
  | cons vw vws ih =>
    intro st h
    have h1 : relax cst cd u st vw = st := by
      unfold relax
      rw [if_neg (h vw (List.mem_cons_self _ _))]
    have hshow : relaxAll cst cd u (vw :: vws) st
        = relaxAll cst cd u vws (relax cst cd u st vw) := rfl
    rw [hshow, h1]
    exact ih (fun x hx => h x (List.mem_cons_of_mem _ hx))

theorem step_pres {g : Graph K} {cst : String → String → K → K} {start : String}
    {st : DState K} {done : Finset String} {m cd : K} {u : String}
    (hInv : Inv g cst start st done m) (Hc : NonnegCost g cst)
    (hmin : minEntry st.pq = some (cd, u)) :
    ∃ done' : Finset String,
      Inv g cst start
        (relaxAll cst cd u (g.adj u) { st with pq := pqErase st.pq (cd, u) }) done' cd ∧
      mu g start (relaxAll cst cd u (g.adj u) { st with pq := pqErase st.pq (cd, u) }) done'
        < mu g start st done := by
  have hpop : ((cd, u) : K × String) ∈ st.pq := minEntry_mem hmin
  have hle := minEntry_le hmin
  have hcd_m : m ≤ cd := hInv.pqM _ hpop
  have hdu : st.dist u ≤ cd := hInv.pqGe _ hpop
  have hcd0 : 0 ≤ cd := le_trans hInv.mNonneg hcd_m
  have hwu : WalkW g cst start u cd := hInv.pqWalk _ hpop
  have hucand : u ∈ cand g start := hInv.pqCand _ hpop
  have huchain : PChain st.prev start u := by
    rcases hInv.pqPrev _ hpop with h | h
    · exact h ▸ PChain.base
    · obtain ⟨y, hy⟩ := Option.isSome_iff_exists.mp h
      exact hInv.prevChain u y hy
  have hsub : ∀ e ∈ pqErase st.pq (cd, u), e ∈ st.pq := fun e he => pqErase_subset he
  have hlen1 : st.pq.length = (pqErase st.pq (cd, u)).length + 1 :=
    length_pqErase_of_mem hpop
  by_cases hfresh : st.dist u = cd
  case pos =>
    have hnotdone : u ∉ done := by
      intro h
      have h2 := hInv.doneStale u h _ hpop rfl
      rw [hfresh] at h2
      exact absurd h2 (lt_irrefl cd)
    have hmid : MidInv g cst start u cd { st with pq := pqErase st.pq (cd, u) } done := by
      refine
        { distLe := hInv.distLe, distNonneg := hInv.distNonneg, cdNonneg := hcd0,
          realized := hInv.realized,
          pqWalk := fun e he => hInv.pqWalk e (hsub e he),
          pqGe := fun e he => hInv.pqGe e (hsub e he),
          pqLtBig := fun e he => hInv.pqLtBig e (hsub e he),
          pqM := fun e he => hle e (hsub e he),
          pqTouched := fun e he => hInv.pqTouched e (hsub e he),
          pqOnce := fun v => not_mem_pqErase_of_erase (hInv.pqOnce v),
          pqCand := fun e he => hInv.pqCand e (hsub e he),
          pqPrev := fun e he => hInv.pqPrev e (hsub e he),
          doneM := fun u' hu' => (hInv.doneM u' hu').trans hcd_m,
          doneTri := hInv.doneTri,
          doneStale := fun u' hu' e he hu2 => hInv.doneStale u' hu' e (hsub e he) hu2,
          doneCand := hInv.doneCand,
          eWit := ?_, prevSet := hInv.prevSet, prevChain := hInv.prevChain,
          prevMono := hInv.prevMono, uDist := hfresh, uStale := ?_,
          uCand := hucand, uChain := huchain, uWalk := hwu }
      · intro v hv
        rcases hInv.eWit v hv with h | h
        · exact Or.inr (Or.inl h)
        · by_cases hveq : ((st.dist v, v) : K × String) = (cd, u)
          · exact Or.inl (congrArg Prod.snd hveq)
          · exact Or.inr (Or.inr (mem_pqErase_of_ne h hveq))
      · intro e he hu2
        have h1 : st.dist u ≤ e.1 := by
          have h3 := hInv.pqGe e (hsub e he)
          rw [hu2] at h3
          exact h3
        rcases lt_or_eq_of_le h1 with h2 | h2
        · exact h2
        · exfalso
          have hpair : e = (st.dist u, u) := by
            rw [Prod.ext_iff]
            exact ⟨h2.symm, hu2⟩
          rw [hpair, hfresh] at he
          have h4 := hInv.pqOnce u
          rw [hfresh] at h4
          exact h4 he
    obtain ⟨hall1, hall2, hall3, hall4⟩ :=
      relaxAll_pres hmid (fun vw hv => hv) (fun vw hv => Hc u vw.1 vw.2 hv)
    refine ⟨insert u done, ?_, ?_⟩
    · refine
        { distLe := hall1.distLe, distNonneg := hall1.distNonneg,
          mNonneg := hcd0, realized := hall1.realized, pqWalk := hall1.pqWalk,
          pqGe := hall1.pqGe, pqLtBig := hall1.pqLtBig, pqM := hall1.pqM,
          pqTouched := hall1.pqTouched, pqOnce := hall1.pqOnce,
          pqCand := hall1.pqCand, pqPrev := hall1.pqPrev,
          doneM := ?_, doneTri := ?_, doneStale := ?_, doneCand := ?_, eWit := ?_,
          prevSet := hall1.prevSet, prevChain := hall1.prevChain,
          prevMono := hall1.prevMono }
      · intro u' hu'
        rcases Finset.mem_insert.mp hu' with rfl | h
        · rw [hall1.uDist]
        · exact hall1.doneM u' h
      · intro u' hu' vw hvw
        rcases Finset.mem_insert.mp hu' with rfl | h
        · rw [hall1.uDist]
          exact hall3 vw hvw
        · exact hall1.doneTri u' h vw hvw
      · intro u' hu' e he hu2
        rcases Finset.mem_insert.mp hu' with rfl | h
        · exact hall1.uStale e he hu2
        · exact hall1.doneStale u' h e he hu2
      · rw [Finset.insert_subset_iff]
        exact ⟨hucand, hall1.doneCand⟩
      · intro v hv
        rcases hall1.eWit v hv with rfl | h | h
        · exact Or.inl (Finset.mem_insert_self _ _)
        · exact Or.inl (Finset.mem_insert_of_mem h)
        · exact Or.inr h
    · unfold mu deg
      have hsd : cand g start \ insert u done = (cand g start \ done).erase u :=
        Finset.sdiff_insert _ _ _
      have hmemd : u ∈ cand g start \ done :=
        Finset.mem_sdiff.mpr ⟨hucand, hnotdone⟩
      have hsum := Finset.sum_erase_add (cand g start \ done)
        (fun v => 1 + (g.adj v).length) hmemd
      rw [hsd]
      dsimp only at hall4 hsum ⊢
      omega
  case neg =>
    have hstale : st.dist u < cd := lt_of_le_of_ne hdu hfresh
    have hudone : u ∈ done := by
      have htu : touched g start st u := hInv.pqTouched _ hpop
      rcases hInv.eWit u htu with h | h
      · exact h
      · exfalso
        have h2 := hle _ h
        exact absurd hstale (not_lt.mpr h2)
    have hnoop : relaxAll cst cd u (g.adj u) { st with pq := pqErase st.pq (cd, u) }
        = { st with pq := pqErase st.pq (cd, u) } := by
      apply relaxAll_noop
      intro vw hvw
      have h1 := hInv.doneTri u hudone vw hvw
      have h2 : st.dist u + cst u vw.1 vw.2 < cd + cst u vw.1 vw.2 :=
        add_lt_add_right hstale _
      exact not_lt.mpr (le_of_lt (lt_of_le_of_lt h1 h2))
    rw [hnoop]
    refine ⟨done, ?_, ?_⟩
    · refine
        { distLe := hInv.distLe, distNonneg := hInv.distNonneg, mNonneg := hcd0,
          realized := hInv.realized,
          pqWalk := fun e he => hInv.pqWalk e (hsub e he),
          pqGe := fun e he => hInv.pqGe e (hsub e he),
          pqLtBig := fun e he => hInv.pqLtBig e (hsub e he),
          pqM := fun e he => hle e (hsub e he),
          pqTouched := fun e he => hInv.pqTouched e (hsub e he),
          pqOnce := fun v => not_mem_pqErase_of_erase (hInv.pqOnce v),
          pqCand := fun e he => hInv.pqCand e (hsub e he),
          pqPrev := fun e he => hInv.pqPrev e (hsub e he),
          doneM := fun u' hu' => (hInv.doneM u' hu').trans hcd_m,
          doneTri := hInv.doneTri,
          doneStale := fun u' hu' e he hu2 => hInv.doneStale u' hu' e (hsub e he) hu2,
          doneCand := hInv.doneCand, eWit := ?_, prevSet := hInv.prevSet,
          prevChain := hInv.prevChain, prevMono := hInv.prevMono }
      intro v hv
      rcases hInv.eWit v hv with h | h
      · exact Or.inl h
      · right
        apply mem_pqErase_of_ne h
        intro hpair
        have hdv : st.dist v = cd := congrArg Prod.fst hpair
        have hvu : v = u := congrArg Prod.snd hpair
        rw [hvu] at hdv
        exact hfresh hdv
    · unfold mu
      dsimp only
      omega

/- ===================== lemmas: the loop ===================== -/

theorem init_Inv (g : Graph K) (cst : String → String → K → K) (start : String) :
    Inv g cst start (initState g start) ∅ 0 := by
  refine
    { distLe := fun v => le_refl _, distNonneg := fun v => initDist_nonneg g start v,
      mNonneg := le_refl 0, realized := fun v => Or.inl rfl,
      pqWalk := ?_, pqGe := ?_, pqLtBig := ?_, pqM := ?_, pqTouched := ?_,
      pqOnce := ?_, pqCand := ?_, pqPrev := ?_,
      doneM := fun u hu => absurd hu (Finset.not_mem_empty u),
      doneTri := fun u hu => absurd hu (Finset.not_mem_empty u),
      doneStale := fun u hu => absurd hu (Finset.not_mem_empty u),
      doneCand := Finset.empty_subset _,
      eWit := ?_, prevSet := ?_, prevChain := ?_, prevMono := ?_ }
  · intro e he
    rcases List.mem_singleton.mp he with rfl
    exact WalkW.nil
  · intro e he
    rcases List.mem_singleton.mp he with rfl
    dsimp only
    rw [show (initState g start).dist start = 0 from initDist_start g start]
  · intro e he
    rcases List.mem_singleton.mp he with rfl
    exact big_pos
  · intro e he
    rcases List.mem_singleton.mp he with rfl
    exact le_refl 0
  · intro e he
    rcases List.mem_singleton.mp he with rfl
    exact Or.inr rfl
  · intro v
    show ((initState g start).dist v, v) ∉ pqErase [((0 : K), start)] _
    by_cases hv : ((initState g start).dist v, v) = ((0 : K), start)
    · rw [pqErase, if_pos hv.symm]
      simp
    · rw [pqErase, if_neg (fun h => hv h.symm)]
      intro hmem
      rcases List.mem_cons.mp hmem with h | h
      · exact hv h
      · simp [pqErase] at h
  · intro e he
    rcases List.mem_singleton.mp he with rfl
    exact Finset.mem_insert_self _ _
  · intro e he
    rcases List.mem_singleton.mp he with rfl
    exact Or.inl rfl
  · intro v hv
    unfold touched at hv
    rcases hv with hv | hv
    · exact absurd hv (lt_irrefl _)
    · right
      rw [hv]
      rw [show (initState g start).dist start = 0 from initDist_start g start]
      exact List.mem_singleton.mpr rfl
  · intro v hv
    exact absurd hv (lt_irrefl _)
  · intro v u h
    simp [initState] at h
  · intro v u h
    simp [initState] at h

theorem loop_facts {g : Graph K} {cst : String → String → K → K} {start goal : String}
    (Hc : NonnegCost g cst) :
    ∀ {fuel : ℕ} {st : DState K} {done : Finset String} {m : K} {stF : DState K},
      Inv g cst start st done m → loop g cst goal fuel st = some stF →
      Exited g cst start goal stF := by
  intro fuel
  induction fuel with
  | zero =>
    intro st done m stF _ h
    simp [loop] at h
  | succ f ih =>
    intro st done m stF hInv h
    rw [loop] at h
    cases hmin : minEntry st.pq with
    | none =>
      rw [hmin] at h
      dsimp only at h
      rw [Option.some.injEq] at h
      subst h
      exact ⟨done, m, Or.inl ⟨hInv, minEntry_eq_none.mp hmin⟩⟩
    | some e =>
      rw [hmin] at h
      obtain ⟨cd, u⟩ := e
      dsimp only at h
      by_cases hg : u = goal
      · subst hg
        rw [if_pos rfl] at h
        rw [Option.some.injEq] at h
        subst h
        exact ⟨done, m, Or.inr ⟨st, cd, hInv, hmin, rfl, rfl, rfl⟩⟩
      · rw [if_neg hg] at h
        obtain ⟨done', hInv', _⟩ := step_pres hInv Hc hmin
        exact ih hInv' h

theorem loop_term {g : Graph K} {cst : String → String → K → K} {start goal : String}
    (Hc : NonnegCost g cst) :
    ∀ {fuel : ℕ} {st : DState K} {done : Finset String} {m : K},
      Inv g cst start st done m → mu g start st done < fuel →
      ∃ stF, loop g cst goal fuel st = some stF := by
  intro fuel
  induction fuel with
  | zero =>
    intro st done m _ h
    omega
  | succ f ih =>
    intro st done m hInv hmu
    rw [loop]
    cases hmin : minEntry st.pq with
    | none => exact ⟨st, rfl⟩
    | some e =>
      obtain ⟨cd, u⟩ := e
      dsimp only
      by_cases hg : u = goal
      · rw [if_pos hg]
        exact ⟨_, rfl⟩
      · rw [if_neg hg]
        obtain ⟨done', hInv', hlt⟩ := step_pres hInv Hc hmin
        exact ih hInv' (by omega)

theorem loop_mono {g : Graph K} {cst : String → String → K → K} {goal : String} :
    ∀ {f : ℕ} {st : DState K} {stF : DState K},
      loop g cst goal f st = some stF →
      ∀ f', f ≤ f' → loop g cst goal f' st = some stF := by
  intro f
  induction f with
  | zero =>
    intro st stF h
    simp [loop] at h
  | succ f ih =>
    intro st stF h f' hf'
    obtain ⟨k, rfl⟩ := Nat.exists_eq_add_of_le hf'
    rw [show f + 1 + k = (f + k) + 1 by omega]
    rw [loop] at h ⊢
    cases hmin : minEntry st.pq with
    | none =>
      rw [hmin] at h
      dsimp only at h ⊢
      exact h
    | some e =>
      rw [hmin] at h
      dsimp only at h ⊢
      by_cases hg : e.2 = goal
      · rw [if_pos hg] at h ⊢
        exact h
      · rw [if_neg hg] at h ⊢
        exact ih h (f + k) (by omega)

theorem dist_start_zero {g : Graph K} {cst : String → String → K → K} {start : String}
    {st : DState K} {done : Finset String} {m : K}
    (hInv : Inv g cst start st done m) : st.dist start = 0 :=
  le_antisymm (le_of_le_of_eq (hInv.distLe start) (initDist_start g start))
    (hInv.distNonneg start)

theorem lower_empty {g : Graph K} {cst : String → String → K → K} {start : String}
    (HWF : WFTargets g) (Hc : NonnegCost g cst)
    {st : DState K} {done : Finset String} {m : K}
    (hInv : Inv g cst start st done m) (hpq : st.pq = []) :
    ∀ {z : String} {W : K}, WalkW g cst start z W → st.dist z ≤ W := by
  intro z W hw
  induction hw with
  | nil => exact le_of_eq (dist_start_zero hInv)
  | @snoc u v w W hwu hmem ih =>
    have hc := Hc u v w hmem
    by_cases hbig : big K ≤ W
    · calc st.dist v ≤ initDist g start v := hInv.distLe v
        _ ≤ big K := initDist_le_big g start v
        _ ≤ W := hbig
        _ ≤ W + cst u v w := le_add_of_nonneg_right hc
    · push_neg at hbig
      have htu : touched g start st u := by
        rcases walk_end_cases HWF hwu with rfl | hu
        · exact Or.inr rfl
        · by_cases hus : u = start
          · exact Or.inr hus
          · left
            rw [initDist_of_nodeId hu hus]
            exact lt_of_le_of_lt ih hbig
      rcases hInv.eWit u htu with hdone | hwit
      · calc st.dist v ≤ st.dist u + cst u v w := hInv.doneTri u hdone (v, w) hmem
          _ ≤ W + cst u v w := add_le_add_right ih _
      · rw [hpq] at hwit
        simp at hwit

theorem lower_break {g : Graph K} {cst : String → String → K → K}
    {start goal : String} (HWF : WFTargets g) (Hc : NonnegCost g cst)
    {st : DState K} {done : Finset String} {m cd : K}
    (hInv : Inv g cst start st done m)
    (hmin : minEntry st.pq = some (cd, goal)) :
    ∀ {z : String} {W : K}, WalkW g cst start z W → st.dist z ≤ W ∨ cd ≤ W := by
  intro z W hw
  induction hw with
  | nil => exact Or.inl (le_of_eq (dist_start_zero hInv))
  | @snoc u v w W hwu hmem ih =>
    have hc := Hc u v w hmem
    rcases ih with ih | ih
    case inr => exact Or.inr (ih.trans (le_add_of_nonneg_right hc))
    case inl =>
      by_cases hbig : big K ≤ W
      · left
        calc st.dist v ≤ initDist g start v := hInv.distLe v
          _ ≤ big K := initDist_le_big g start v
          _ ≤ W := hbig
          _ ≤ W + cst u v w := le_add_of_nonneg_right hc
      · push_neg at hbig
        have htu : touched g start st u := by
          rcases walk_end_cases HWF hwu with rfl | hu
          · exact Or.inr rfl
          · by_cases hus : u = start
            · exact Or.inr hus
            · left
              rw [initDist_of_nodeId hu hus]
              exact lt_of_le_of_lt ih hbig
        rcases hInv.eWit u htu with hdone | hwit
        · left
          calc st.dist v ≤ st.dist u + cst u v w := hInv.doneTri u hdone (v, w) hmem
            _ ≤ W + cst u v w := add_le_add_right ih _
        · right
          have h1 := minEntry_le hmin _ hwit
          calc cd ≤ st.dist u := h1
            _ ≤ W := ih
            _ ≤ W + cst u v w := le_add_of_nonneg_right hc

theorem lower_break_goal {g : Graph K} {cst : String → String → K → K}
    {start goal : String} (HWF : WFTargets g) (Hc : NonnegCost g cst)
    {st : DState K} {done : Finset String} {m cd : K}
    (hInv : Inv g cst start st done m)
    (hmin : minEntry st.pq = some (cd, goal))
    {W : K} (hw : WalkW g cst start goal W) : st.dist goal ≤ W := by
  rcases lower_break HWF Hc hInv hmin hw with h | h
  · exact h
  · exact le_trans (hInv.pqGe _ (minEntry_mem hmin)) h

theorem exit_realized {g : Graph K} {cst : String → String → K → K}
    {start goal : String} (hgoal : goal ∈ g.nodeIds)
    {st : DState K} {done : Finset String} {m : K}
    (hInv : Inv g cst start st done m) (hlt : st.dist goal < big K) :
    WalkW g cst start goal (st.dist goal) := by
  rcases hInv.realized goal with h | h
  · by_cases hgs : goal = start
    · subst hgs
      rw [h, initDist_start]
      exact WalkW.nil
    · rw [initDist_of_nodeId hgoal hgs] at h
      rw [h] at hlt
      exact absurd hlt (lt_irrefl _)
  · exact h

theorem exit_route {g : Graph K} {cst : String → String → K → K}
    {start goal : String} (hgoal : goal ∈ g.nodeIds)
    {st : DState K} {done : Finset String} {m : K}
    (hInv : Inv g cst start st done m) (hlt : st.dist goal < big K) :
    ∃ n l, walkPrev st.prev start n goal = some l ∧ l ≠ [] ∧
      l.getLast? = some start := by
  by_cases hgs : goal = start
  · subst hgs
    exact ⟨1, [goal], by simp [walkPrev], by simp, by simp⟩
  · have hlt2 : st.dist goal < initDist g start goal := by
      rw [initDist_of_nodeId hgoal hgs]
      exact hlt
    obtain ⟨y, hy⟩ := Option.isSome_iff_exists.mp (hInv.prevSet goal hlt2)
    exact pchain_walkPrev (hInv.prevChain goal y hy)

/- ===================== lemmas: end-to-end runs ===================== -/

theorem adj_mem {g : Graph K} {u v : String} {w : K}
    (h : (v, w) ∈ g.adj u) : ∃ l, (u, l) ∈ g.adjL ∧ (v, w) ∈ l := by
  unfold Graph.adj at h
  cases hl : alookup g.adjL u with
  | none =>
    rw [hl] at h
    simp at h
  | some l =>
    rw [hl] at h
    simp only [Option.getD_some] at h
    exact ⟨l, alookup_mem hl, h⟩

theorem cycle_adj_cases {u v : String} {w : ℚ} (h : (v, w) ∈ cycleGraphQ.adj u) :
    v ∈ cycleGraphQ.nodeIds ∧ w = 100 := by
  obtain ⟨l, hl, hm⟩ := adj_mem h
  simp only [cycleGraphQ, List.mem_cons, List.not_mem_nil, or_false,
    Prod.mk.injEq] at hl
  rcases hl with ⟨rfl, rfl⟩ | ⟨rfl, rfl⟩ | ⟨rfl, rfl⟩ | ⟨rfl, rfl⟩ <;>
    simp only [List.mem_cons, List.not_mem_nil, or_false, Prod.mk.injEq] at hm <;>
    rcases hm with ⟨rfl, rfl⟩ | ⟨rfl, rfl⟩ <;>
    exact ⟨by decide, rfl⟩

theorem twoIslands_walk_eq {z : String} {W : ℚ}
    (h : WalkW twoIslands (distanceOnly ℚ) "A" z W) : z = "A" := by
  induction h with
  | nil => rfl
  | snoc hw hmem ih => simp [Graph.adj, twoIslands, alookup] at hmem

/-- C1: with well-formed adjacency targets (spec §3) and a non-negative
cost model, whenever the engine returns a route with a cost other than
the no-path marker `-1`, that cost is realized by a directed walk from
`start` to `goal` and is a lower bound on the cost of every directed
walk from `start` to `goal` — i.e. it is the minimum walk cost; the
statement covers both exit modes of the loop (frontier emptied or early
exit on popping the goal), so the early exit does not change the
result. -/
theorem C1_dijkstra_optimal (g : Graph K) (cst : String → String → K → K)
    (start goal : String) (fuel : ℕ) (route : List String) (c : K)
    (HWF : WFTargets g) (Hc : NonnegCost g cst) (hgoal : goal ∈ g.nodeIds)
    (hrun : dijkstraRun g cst start goal fuel = some (route, c))
    (hc : c ≠ -1) :
    WalkW g cst start goal c ∧ ∀ W, WalkW g cst start goal W → c ≤ W := by
  unfold dijkstraRun at hrun
  cases hloop : loop g cst goal fuel (initState g start) with
  | none =>
    rw [hloop] at hrun
    simp at hrun
  | some st =>
    rw [hloop] at hrun
    dsimp only [Option.bind] at hrun
    by_cases hge : st.dist goal ≥ big K
    · rw [if_pos hge] at hrun
      rw [Option.some.injEq, Prod.mk.injEq] at hrun
      exact absurd hrun.2.symm hc
    · rw [if_neg hge] at hrun
      push_neg at hge
      cases hwp : walkPrev st.prev start fuel goal with
      | none =>
        rw [hwp] at hrun
        simp at hrun
      | some l =>
        rw [hwp] at hrun
        dsimp only [Option.map] at hrun
        rw [Option.some.injEq, Prod.mk.injEq] at hrun
        obtain ⟨hroute, hcost⟩ := hrun
        subst hcost
        obtain ⟨done, m, hcase⟩ := loop_facts Hc (init_Inv g cst start) hloop
        rcases hcase with ⟨hInv, hpq⟩ | ⟨stPre, cd, hInv, hmin, hdist, hprev, hpqF⟩
        · exact ⟨exit_realized hgoal hInv hge,
            fun W hw => lower_empty HWF Hc hInv hpq hw⟩
        · have hdg : st.dist goal = stPre.dist goal := congrFun hdist goal
          rw [hdg] at hge ⊢
          exact ⟨exit_realized hgoal hInv hge,
            fun W hw => lower_break_goal HWF Hc hInv hmin hw⟩

set_option maxHeartbeats 2000000 in
/-- Witness for C1: on the 4-cycle fixture with the DistanceOnly cost
model, the returned cost `200` is a walk cost and the least one. -/
theorem C1_dijkstra_optimal_witness :
    WalkW cycleGraphQ (distanceOnly ℚ) "A" "C" 200 ∧
    ∀ W, WalkW cycleGraphQ (distanceOnly ℚ) "A" "C" W → (200 : ℚ) ≤ W := by
  have heval : dijkstraRun cycleGraphQ (distanceOnly ℚ) "A" "C" 20
      = some (["A", "B", "C"], 200) := by
    norm_num +decide [dijkstraRun, loop, minEntry, pmin, pqErase, relaxAll, relax,
      initState, initDist, Graph.adj, alookup, walkPrev, big, cycleGraphQ,
      distanceOnly]
  exact C1_dijkstra_optimal cycleGraphQ (distanceOnly ℚ) "A" "C" 20
    ["A", "B", "C"] 200
    (fun u v w h => (cycle_adj_cases h).1)
    (fun u v w h => by
      show (0 : ℚ) ≤ w
      rw [(cycle_adj_cases h).2]
      norm_num)
    (by decide) heval (by norm_num)

/-- C6: when the goal is a registered node unreachable from `start`
(no directed walk reaches it) and the loop finishes, the goal's
tentative distance still equals the `1e18` sentinel and the engine
returns the explicit no-path result `([], -1)` — it neither crashes nor
reports a finite distance. -/
theorem C6_nopath (g : Graph K) (cst : String → String → K → K)
    (start goal : String) (fuel : ℕ) (st : DState K)
    (Hc : NonnegCost g cst) (hgoal : goal ∈ g.nodeIds)
    (hunreach : ¬ ∃ W, WalkW g cst start goal W)
    (hloop : loop g cst goal fuel (initState g start) = some st) :
    st.dist goal = big K ∧ dijkstraRun g cst start goal fuel = some ([], -1) := by
  have hne : goal ≠ start := by
    rintro rfl
    exact hunreach ⟨0, WalkW.nil⟩
  obtain ⟨done, m, hcase⟩ := loop_facts Hc (init_Inv g cst start) hloop
  rcases hcase with ⟨hInv, _⟩ | ⟨stPre, cd, hInv, hmin, hdist, hprev, hpqF⟩
  · have hbig : st.dist goal = big K := by
      rcases hInv.realized goal with h | h
      · rw [h, initDist_of_nodeId hgoal hne]
      · exact absurd ⟨_, h⟩ hunreach
    refine ⟨hbig, ?_⟩
    unfold dijkstraRun
    rw [hloop]
    dsimp only [Option.bind]
    rw [if_pos (ge_of_eq hbig)]
  · exact absurd ⟨cd, hInv.pqWalk _ (minEntry_mem hmin)⟩ hunreach

/-- Witness for C6 on the disconnected two-node fixture: the run from
`A` to the unreachable `B` returns the no-path result. -/
theorem C6_nopath_witness :
    dijkstraRun twoIslands (distanceOnly ℚ) "A" "B" 2 = some ([], -1) := by
  have hsome : (loop twoIslands (distanceOnly ℚ) "B" 2
      (initState twoIslands "A")).isSome = true := by
    norm_num +decide [loop, minEntry, pmin, pqErase, relaxAll, relax, initState,
      initDist, Graph.adj, alookup, big, twoIslands, distanceOnly]
  obtain ⟨st, hst⟩ := Option.isSome_iff_exists.mp hsome
  have hun : ¬ ∃ W, WalkW twoIslands (distanceOnly ℚ) "A" "B" W := by
    rintro ⟨W, hw⟩
    exact absurd (twoIslands_walk_eq hw) (by decide)
  exact (C6_nopath twoIslands (distanceOnly ℚ) "A" "B" 2 st
    (fun u v w h => by simp [Graph.adj, twoIslands, alookup] at h)
    (by decide) hun hst).2

/-- C10: with a non-negative cost model and a registered goal the
engine terminates: some finite fuel makes the frontier loop finish and
the whole run — the backward predecessor walk from `goal` included —
return a result. -/
theorem C10_termination (g : Graph K) (cst : String → String → K → K)
    (start goal : String)
    (Hc : NonnegCost g cst) (hgoal : goal ∈ g.nodeIds) :
    ∃ F r, dijkstraRun g cst start goal F = some r := by
  have hterm : ∃ stF, loop g cst goal (mu g start (initState g start) ∅ + 1)
      (initState g start) = some stF :=
    loop_term Hc (init_Inv g cst start)
      (Nat.lt_succ_self (mu g start (initState g start) ∅))
  obtain ⟨st, hloop⟩ := hterm
  by_cases hge : big K ≤ st.dist goal
  · refine ⟨mu g start (initState g start) ∅ + 1, ([], -1), ?_⟩
    unfold dijkstraRun
    rw [hloop]
    dsimp only [Option.bind]
    rw [if_pos hge]
  · push_neg at hge
    obtain ⟨done, m, hcase⟩ := loop_facts Hc (init_Inv g cst start) hloop
    rcases hcase with ⟨hInv, _⟩ | ⟨stPre, cd, hInv, hmin, hdist, hprev, hpqF⟩
    · obtain ⟨n, l, hwp, _, _⟩ := exit_route hgoal hInv hge
      refine ⟨max (mu g start (initState g start) ∅ + 1) n,
        (l.reverse, st.dist goal), ?_⟩
      unfold dijkstraRun
      rw [loop_mono hloop _ (le_max_left _ _)]
      dsimp only [Option.bind]
      rw [if_neg (not_le.mpr hge), walkPrev_mono hwp _ (le_max_right _ _)]
      rfl
    · have hge2 : stPre.dist goal < big K := by
        rw [← congrFun hdist goal]
        exact hge
      obtain ⟨n, l, hwp, _, _⟩ := exit_route hgoal hInv hge2
      refine ⟨max (mu g start (initState g start) ∅ + 1) n,
        (l.reverse, st.dist goal), ?_⟩
      unfold dijkstraRun
      rw [loop_mono hloop _ (le_max_left _ _)]
      dsimp only [Option.bind]
      rw [if_neg (not_le.mpr hge), hprev,
        walkPrev_mono hwp _ (le_max_right _ _)]
      rfl

/-- Witness for C10 at the 4-cycle fixture with the DistanceOnly cost
model. -/
theorem C10_termination_witness :
    ∃ F r, dijkstraRun cycleGraphQ (distanceOnly ℚ) "A" "D" F = some r :=
  C10_termination cycleGraphQ (distanceOnly ℚ) "A" "D"
    (fun u v w h => by
      show (0 : ℚ) ≤ w
      rw [(cycle_adj_cases h).2]
      norm_num)
    (by decide)

end Mobility

